import Mathlib

/-!
Verification of the sparta Rust abstract-interpretation library
(facebook/redex, `sparta/rust`): a shallow embedding of the lattice
constructors, the Patricia-tree map, the weak partial ordering (WPO)
builder and the monotonic fixpoint iterator, with theorems settling the
specification claims.

Node and edge identifiers are modelled as natural numbers; Rust HashMaps
become association lists or Lean functions; in-place mutation becomes
explicit state passing.
-/

namespace Sparta

/-- The `AbstractDomain` trait of `datatype/abstract_domain.rs`, reified as a
structure of operations.  In-place `join_with`/`meet_with`/`widen_with`/
`narrow_with` are modelled as binary functions returning the updated value. -/
structure DomainOps (D : Type) where
  bottom : D
  top : D
  is_bottom : D → Bool
  is_top : D → Bool
  leq : D → D → Bool
  join : D → D → D
  meet : D → D → D
  widen : D → D → D
  narrow : D → D → D

/-! ### Powerset lattice (`datatype/powerset.rs`), instantiated with finite
sets of naturals as the set-ops capability (the Rust code is generic over a
`SetAbstractDomainOps` implementation such as `HashSet`). -/

/-- The three-tagged powerset lattice `Top | Value(S) | Bottom` of
`powerset.rs`, with `S` a finite set of naturals. -/
inductive PowersetLattice where
  | Top : PowersetLattice
  | Value : Finset ℕ → PowersetLattice
  | Bottom : PowersetLattice
deriving DecidableEq

namespace PowersetLattice

def is_bottom : PowersetLattice → Bool
  | Bottom => true
  | _ => false

def is_top : PowersetLattice → Bool
  | Top => true
  | _ => false

/-- `leq` of the `AbstractDomain` impl for `PowersetLattice`. -/
def leq : PowersetLattice → PowersetLattice → Bool
  | Top, rhs => rhs.is_top
  | Value s, Top => true
  | Value s, Value t => decide (s ⊆ t)
  | Value s, Bottom => false
  | Bottom, _ => true

/-- `join_with` (returning the updated receiver). -/
def join : PowersetLattice → PowersetLattice → PowersetLattice
  | Top, _ => Top
  | Value s, Top => Top
  | Value s, Value t => Value (s ∪ t)
  | Value s, Bottom => Value s
  | Bottom, rhs => rhs

/-- `meet_with` (returning the updated receiver). -/
def meet : PowersetLattice → PowersetLattice → PowersetLattice
  | Top, rhs => rhs
  | Value s, Top => Value s
  | Value s, Value t => Value (s ∩ t)
  | Value s, Bottom => Bottom
  | Bottom, _ => Bottom

/-- `widen_with` always goes to `top` in `powerset.rs`. -/
def widen : PowersetLattice → PowersetLattice → PowersetLattice
  | _, _ => Top

/-- `narrow_with` always goes to `bottom` in `powerset.rs`. -/
def narrow : PowersetLattice → PowersetLattice → PowersetLattice
  | _, _ => Bottom

end PowersetLattice

/-- The `DomainOps` bundle for the powerset lattice. -/
def powersetOps : DomainOps PowersetLattice where
  bottom := PowersetLattice.Bottom
  top := PowersetLattice.Top
  is_bottom := PowersetLattice.is_bottom
  is_top := PowersetLattice.is_top
  leq := PowersetLattice.leq
  join := PowersetLattice.join
  meet := PowersetLattice.meet
  widen := PowersetLattice.widen
  narrow := PowersetLattice.narrow

/-! ### WPO node data (`wpo.rs`, lines 19-160): the read-side structure used
by the fixpoint iterator. `BTreeSet<WpoIdx>` becomes a sorted list of
naturals, `HashMap<WpoIdx, u32>` an association list. -/

inductive WpoNodeType where
  | Head : WpoNodeType
  | Plain : WpoNodeType
  | Exit : WpoNodeType
deriving DecidableEq

structure WpoNodeData where
  node : ℕ
  size : ℕ
  successors : List ℕ
  predessors : List ℕ
  num_outer_preds : List (ℕ × ℕ)
deriving DecidableEq

/-- `WpoNodeData::new` -/
def WpoNodeData.new (node : ℕ) (size : ℕ) : WpoNodeData :=
  { node := node, size := size, successors := [], predessors := [],
    num_outer_preds := [] }

structure WpoNode where
  ty : WpoNodeType
  data : WpoNodeData
deriving DecidableEq

namespace WpoNode

def new (ty : WpoNodeType) (node : ℕ) (size : ℕ) : WpoNode :=
  { ty := ty, data := WpoNodeData.new node size }

def plain (node : ℕ) (size : ℕ) : WpoNode := new WpoNodeType.Plain node size

def head (node : ℕ) (size : ℕ) : WpoNode := new WpoNodeType.Head node size

def exit (node : ℕ) (size : ℕ) : WpoNode := new WpoNodeType.Exit node size

def is_plain (n : WpoNode) : Bool := n.ty = WpoNodeType.Plain

def is_head (n : WpoNode) : Bool := n.ty = WpoNodeType.Head

def is_exit (n : WpoNode) : Bool := n.ty = WpoNodeType.Exit

def get_node (n : WpoNode) : ℕ := n.data.node

def get_successors (n : WpoNode) : List ℕ := n.data.successors

def get_predecessors (n : WpoNode) : List ℕ := n.data.predessors

def get_num_preds (n : WpoNode) : ℕ := n.get_predecessors.length

def get_num_outer_preds (n : WpoNode) : List (ℕ × ℕ) := n.data.num_outer_preds

def get_size (n : WpoNode) : ℕ := n.data.size

end WpoNode

structure WeakPartialOrdering where
  nodes : List WpoNode
  toplevel : List ℕ
  post_dfn : List (ℕ × ℕ)
deriving DecidableEq

namespace WeakPartialOrdering

/-- Rust indexes `self.nodes[idx]` (panics out of range); the model reads a
default node out of range, a path never taken on in-range indices. -/
def nodeAt (w : WeakPartialOrdering) (idx : ℕ) : WpoNode :=
  w.nodes.getD idx (WpoNode.plain 0 0)

def size (w : WeakPartialOrdering) : ℕ := w.nodes.length

def get_entry (w : WeakPartialOrdering) : ℕ := w.nodes.length - 1

def get_successors (w : WeakPartialOrdering) (idx : ℕ) : List ℕ :=
  (w.nodeAt idx).get_successors

def get_predecessors (w : WeakPartialOrdering) (idx : ℕ) : List ℕ :=
  (w.nodeAt idx).get_predecessors

def get_num_preds (w : WeakPartialOrdering) (idx : ℕ) : ℕ :=
  (w.nodeAt idx).get_num_preds

def get_num_outer_preds (w : WeakPartialOrdering) (idx : ℕ) : List (ℕ × ℕ) :=
  (w.nodeAt idx).get_num_outer_preds

def get_head_of_exit (_w : WeakPartialOrdering) (exit : ℕ) : ℕ := exit + 1

def get_exit_of_head (_w : WeakPartialOrdering) (head : ℕ) : ℕ := head - 1

def get_node (w : WeakPartialOrdering) (idx : ℕ) : ℕ := (w.nodeAt idx).get_node

def is_plain (w : WeakPartialOrdering) (idx : ℕ) : Bool := (w.nodeAt idx).is_plain

def is_head (w : WeakPartialOrdering) (idx : ℕ) : Bool := (w.nodeAt idx).is_head

def is_exit (w : WeakPartialOrdering) (idx : ℕ) : Bool := (w.nodeAt idx).is_exit

def get_post_dfn (w : WeakPartialOrdering) (n : ℕ) : ℕ :=
  ((w.post_dfn.find? (fun p => p.1 == n)).map Prod.snd).getD 0

def is_from_outside (w : WeakPartialOrdering) (head pred : ℕ) : Bool :=
  w.get_post_dfn head < w.get_post_dfn pred

end WeakPartialOrdering

/-! ### Monotonic fixpoint iterator (`fixpoint_iter.rs`).  The iterator's
mutable state (the two state maps, the per-WPO-vertex counter array, the
FIFO worklist and the context's iteration counters) is carried explicitly. -/

/-- The `FixpointIteratorTransformer` trait: `analyze_node` mutates the
current state in place, modelled as returning the new state. -/
structure TransformerOps (D : Type) where
  analyze_node : ℕ → D → D
  analyze_edge : ℕ → D → D

/-- The part of the `Graph` trait consumed by `run`: entry node,
predecessor edges and edge sources. -/
structure GraphOps where
  entry : ℕ
  predecessors : ℕ → List ℕ
  source : ℕ → ℕ

/-- The mutable state of `MonotonicFixpointIterator::run`: state maps
(`HashMap<NodeId, D>` as `ℕ → Option D`), the counter array, the FIFO
worklist, and the context's per-node iteration counters (default 0). -/
structure IterState (D : Type) where
  entry_states : ℕ → Option D
  exit_states : ℕ → Option D
  wpo_counter : ℕ → ℕ
  worklist : List ℕ
  local_iterations : ℕ → ℕ
  global_iterations : ℕ → ℕ

/-- Pointwise update of a function-modelled map. -/
def updFn {α : Type} (f : ℕ → α) (k : ℕ) (v : α) : ℕ → α :=
  fun m => if m = k then v else f m

namespace FixpointIter

variable {D : Type}

/-- `get_state_at_or_bottom` -/
def get_state_at_or_bottom (dops : DomainOps D) (states : ℕ → Option D)
    (n : ℕ) : D :=
  (states n).getD dops.bottom

/-- `MonotonicFixpointIterator::compute_entry_state`: starting from the given
accumulator, join the initial value when `n` is the graph entry, then join
the edge-transformed exit state of every predecessor edge. -/
def compute_entry_state (dops : DomainOps D) (g : GraphOps)
    (exit_states : ℕ → Option D) (t : TransformerOps D) (init_value : D)
    (n : ℕ) (entry_state : D) : D :=
  let e1 := if n = g.entry then dops.join entry_state init_value else entry_state
  (g.predecessors n).foldl
    (fun acc e =>
      dops.join acc
        (t.analyze_edge e (get_state_at_or_bottom dops exit_states (g.source e))))
    e1

/-- `MonotonicFixpointIterator::analyze_vertex` -/
def analyze_vertex (dops : DomainOps D) (g : GraphOps) (t : TransformerOps D)
    (init_value : D) (s : IterState D) (n : ℕ) : IterState D :=
  let entry0 := (s.entry_states n).getD dops.bottom
  let entry1 := compute_entry_state dops g s.exit_states t init_value n entry0
  let exit1 := t.analyze_node n entry1
  { s with
    entry_states := updFn s.entry_states n (some entry1)
    exit_states := updFn s.exit_states n (some exit1) }

/-- The successor-release loop of `process_node` (shared verbatim by the
Plain/Head case and the stabilized Exit case): increment each successor's
counter and enqueue it when the counter reaches its predecessor count. -/
def releaseSuccessors (wpo : WeakPartialOrdering) (idx : ℕ)
    (counter : ℕ → ℕ) (worklist : List ℕ) : (ℕ → ℕ) × List ℕ :=
  (wpo.get_successors idx).foldl
    (fun cw succ =>
      let old := cw.1 succ
      (updFn cw.1 succ (old + 1),
        if old + 1 = wpo.get_num_preds succ then cw.2 ++ [succ] else cw.2))
    (counter, worklist)

/-- `MonotonicFixpointIterator::extrapolate` (default widening strategy):
join at the first global iteration, widening afterwards.  The context's
`global_iterations` map is passed as a function. -/
def extrapolate (dops : DomainOps D) (global_iterations : ℕ → ℕ) (n : ℕ)
    (current_state new_state : D) : D :=
  if global_iterations n = 0 then dops.join current_state new_state
  else dops.widen current_state new_state

/-- The body of the `process_node` closure in `run`, for a popped WPO index
`idx`.  The counter is zeroed on pop; a non-Exit vertex is analyzed and its
successors released; an Exit vertex recomputes the head's entry state and
either stabilizes (store, reset local iterations, release successors) or
extrapolates (join/widen, bump iteration counts, re-credit outer
predecessors, re-enqueue the entry head). -/
def process_node (dops : DomainOps D) (g : GraphOps) (t : TransformerOps D)
    (wpo : WeakPartialOrdering) (init_value : D) (entry_idx idx : ℕ)
    (s0 : IterState D) : IterState D :=
  let s := { s0 with wpo_counter := updFn s0.wpo_counter idx 0 }
  if wpo.is_exit idx then
    let head_idx := wpo.get_head_of_exit idx
    let head := wpo.get_node head_idx
    let current_state := (s.entry_states head).getD dops.bottom
    let new_state :=
      compute_entry_state dops g s.exit_states t init_value head dops.bottom
    if dops.leq new_state current_state then
      let s1 := { s with
        entry_states := updFn s.entry_states head (some new_state)
        local_iterations := updFn s.local_iterations head 0 }
      let cw := releaseSuccessors wpo idx s1.wpo_counter s1.worklist
      { s1 with wpo_counter := cw.1, worklist := cw.2 }
    else
      let s1 := { s with
        entry_states := updFn s.entry_states head
          (some (extrapolate dops s.global_iterations head current_state new_state))
        local_iterations := updFn s.local_iterations head (s.local_iterations head + 1)
        global_iterations := updFn s.global_iterations head (s.global_iterations head + 1) }
      let cw := (wpo.get_num_outer_preds idx).foldl
        (fun cw p =>
          let old := cw.1 p.1
          (updFn cw.1 p.1 (old + p.2),
            if old + p.2 = wpo.get_num_preds p.1 then cw.2 ++ [p.1] else cw.2))
        (s1.wpo_counter, s1.worklist)
      let wl := if head_idx = entry_idx then cw.2 ++ [head_idx] else cw.2
      { s1 with wpo_counter := cw.1, worklist := wl }
  else
    let s1 := analyze_vertex dops g t init_value s (wpo.get_node idx)
    let cw := releaseSuccessors wpo idx s1.wpo_counter s1.worklist
    { s1 with wpo_counter := cw.1, worklist := cw.2 }

/-- The worklist loop of `run`, with explicit fuel (the Rust loop runs until
the FIFO worklist is empty). -/
def run_loop (dops : DomainOps D) (g : GraphOps) (t : TransformerOps D)
    (wpo : WeakPartialOrdering) (init_value : D) (entry_idx : ℕ) :
    ℕ → IterState D → IterState D
  | 0, s => s
  | fuel + 1, s =>
    match s.worklist with
    | [] => s
    | idx :: rest =>
      run_loop dops g t wpo init_value entry_idx fuel
        (process_node dops g t wpo init_value entry_idx idx { s with worklist := rest })

/-- `MonotonicFixpointIterator::run`: clear the states, zero the counters,
seed the worklist with the WPO entry and run the loop. -/
def run (dops : DomainOps D) (g : GraphOps) (t : TransformerOps D)
    (wpo : WeakPartialOrdering) (init_value : D) (fuel : ℕ) : IterState D :=
  let entry_idx := wpo.get_entry
  run_loop dops g t wpo init_value entry_idx fuel
    { entry_states := fun _ => none
      exit_states := fun _ => none
      wpo_counter := fun _ => 0
      worklist := [entry_idx]
      local_iterations := fun _ => 0
      global_iterations := fun _ => 0 }

end FixpointIter

/-! ### Disjoint union (`rust-proc-macros/src/lib.rs`, `derive_disjoint_union`).
The derive generates an `AbstractDomain` impl for any enum of sub-domains; we
embed the generated code for a two-variant enum `First(D1) | Second(D2)`,
parametric in the two inner domains. -/

inductive DisjointUnion (D1 D2 : Type) where
  | First : D1 → DisjointUnion D1 D2
  | Second : D2 → DisjointUnion D1 D2
deriving DecidableEq

namespace DisjointUnion

variable {D1 D2 : Type}

/-- Generated `bottom`: the first variant holding the inner bottom. -/
def bottom (o1 : DomainOps D1) (_o2 : DomainOps D2) : DisjointUnion D1 D2 :=
  First o1.bottom

/-- Generated `top`: the first variant holding the inner top. -/
def top (o1 : DomainOps D1) (_o2 : DomainOps D2) : DisjointUnion D1 D2 :=
  First o1.top

/-- Generated `is_bottom`: delegate to the held variant. -/
def is_bottom (o1 : DomainOps D1) (o2 : DomainOps D2) :
    DisjointUnion D1 D2 → Bool
  | First d => o1.is_bottom d
  | Second d => o2.is_bottom d

/-- Generated `is_top`: delegate to the held variant. -/
def is_top (o1 : DomainOps D1) (o2 : DomainOps D2) :
    DisjointUnion D1 D2 → Bool
  | First d => o1.is_top d
  | Second d => o2.is_top d

/-- Generated `leq`: bottom/top short-circuits first (in the macro's order),
then same-variant delegation, and `false` across variants. -/
def leq (o1 : DomainOps D1) (o2 : DomainOps D2)
    (lhs rhs : DisjointUnion D1 D2) : Bool :=
  if is_bottom o1 o2 lhs then true
  else if is_bottom o1 o2 rhs then false
  else if is_top o1 o2 rhs then true
  else if is_top o1 o2 lhs then false
  else
    match lhs, rhs with
    | First l, First r => o1.leq l r
    | Second l, Second r => o2.leq l r
    | _, _ => false

/-- Generated `join_with`: same-variant delegation, `top` across variants. -/
def join (o1 : DomainOps D1) (o2 : DomainOps D2) :
    DisjointUnion D1 D2 → DisjointUnion D1 D2 → DisjointUnion D1 D2
  | First l, First r => First (o1.join l r)
  | Second l, Second r => Second (o2.join l r)
  | _, _ => top o1 o2

/-- Generated `meet_with`: same-variant delegation, `bottom` across
variants. -/
def meet (o1 : DomainOps D1) (o2 : DomainOps D2) :
    DisjointUnion D1 D2 → DisjointUnion D1 D2 → DisjointUnion D1 D2
  | First l, First r => First (o1.meet l r)
  | Second l, Second r => Second (o2.meet l r)
  | _, _ => bottom o1 o2

/-- Predicate: the two values carry different variant tags. -/
def differentVariants : DisjointUnion D1 D2 → DisjointUnion D1 D2 → Prop
  | First _, Second _ => True
  | Second _, First _ => True
  | _, _ => False

end DisjointUnion

/-! ### HashMap-backed abstract environment
(`datatype/abstract_environment.rs`, `HashMapAbstractEnvironment`).  The
`HashMap<V, D>` is modelled as an association list with at most one entry per
key; `insert` replaces, `remove` deletes. -/

/-- `HashMap::get` on the association-list model. -/
def mapGet {V D : Type} [DecidableEq V] (m : List (V × D)) (k : V) : Option D :=
  (m.find? (fun p => p.1 == k)).map Prod.snd

/-- `HashMap::remove` on the association-list model. -/
def mapRemove {V D : Type} [DecidableEq V] (m : List (V × D)) (k : V) :
    List (V × D) :=
  m.filter (fun p => !(p.1 == k))

/-- `HashMap::insert` on the association-list model (replaces any previous
binding of the key). -/
def mapInsert {V D : Type} [DecidableEq V] (m : List (V × D)) (k : V) (d : D) :
    List (V × D) :=
  (k, d) :: mapRemove m k

inductive HashMapAbstractEnvironment (V D : Type) where
  | Value : List (V × D) → HashMapAbstractEnvironment V D
  | Bottom : HashMapAbstractEnvironment V D
deriving DecidableEq

namespace HashMapAbstractEnvironment

variable {V D : Type} [DecidableEq V]

/-- `bindings()`: the map when the environment is a `Value`. -/
def bindings : HashMapAbstractEnvironment V D → Option (List (V × D))
  | Value m => some m
  | Bottom => none

/-- `get`: `⊥` on a Bottom environment, the binding when present, and the
domain's `⊤` for an unbound variable. -/
def get (dops : DomainOps D) (e : HashMapAbstractEnvironment V D) (v : V) : D :=
  match e with
  | Bottom => dops.bottom
  | Value m =>
    match mapGet m v with
    | some d => d
    | none => dops.top

/-- `set`: on a `Value` environment, a `⊤` binding is removed, a `⊥` binding
collapses the environment to `Bottom`, anything else is stored; a `Bottom`
environment is left unchanged. -/
def set (dops : DomainOps D) (e : HashMapAbstractEnvironment V D) (v : V)
    (d : D) : HashMapAbstractEnvironment V D :=
  match e with
  | Bottom => Bottom
  | Value m =>
    if dops.is_top d then Value (mapRemove m v)
    else if dops.is_bottom d then Bottom
    else Value (mapInsert m v d)

def is_bottom : HashMapAbstractEnvironment V D → Bool
  | Bottom => true
  | _ => false

end HashMapAbstractEnvironment

/-! ### HashMap-backed abstract partition
(`datatype/abstract_partition.rs`, `HashMapAbstractPartition`). -/

inductive HashMapAbstractPartition (L D : Type) where
  | Top : HashMapAbstractPartition L D
  | Value : List (L × D) → HashMapAbstractPartition L D
deriving DecidableEq

namespace HashMapAbstractPartition

variable {L D : Type} [DecidableEq L]

/-- `bindings()`: the map when the partition is a `Value`. -/
def bindings : HashMapAbstractPartition L D → Option (List (L × D))
  | Value m => some m
  | Top => none

/-- `get`: `⊤` on a Top partition, the binding when present, and the domain's
`⊥` for an unbound label. -/
def get (dops : DomainOps D) (e : HashMapAbstractPartition L D) (l : L) : D :=
  match e with
  | Top => dops.top
  | Value m =>
    match mapGet m l with
    | some d => d
    | none => dops.bottom

/-- `set`: a no-op on a Top partition; on a `Value` partition a `⊥` binding
is removed and anything else is stored. -/
def set (dops : DomainOps D) (e : HashMapAbstractPartition L D) (l : L)
    (d : D) : HashMapAbstractPartition L D :=
  match e with
  | Top => Top
  | Value m =>
    if dops.is_bottom d then Value (mapRemove m l)
    else Value (mapInsert m l d)

def is_top : HashMapAbstractPartition L D → Bool
  | Top => true
  | _ => false

end HashMapAbstractPartition

/-! ### BitVec (`datatype/bitvec.rs`).  The small-vector representation
stores the bits in one machine word; we model the word as a natural number
together with the length, on a 64-bit platform.  The "long vector" case
(`len > 64`) is unimplemented (`todo!`) in the source and out of scope. -/

def POINTER_SIZE_IN_BITS : ℕ := 64

/-- `make_mask(len)`: a word whose low `len` bits are 1 (the source branches
on `len == POINTER_SIZE_IN_BITS` only to avoid shift overflow). -/
def make_mask (len : ℕ) : ℕ :=
  if len = POINTER_SIZE_IN_BITS then 2 ^ POINTER_SIZE_IN_BITS - 1
  else 2 ^ len - 1

structure BitVec where
  bits : ℕ
  len : ℕ
deriving DecidableEq

namespace BitVec

/-- `BitVec::new` -/
def new : BitVec := { bits := 0, len := 0 }

/-- `BitVec::from_int` (a full-width word). -/
def from_int (v : ℕ) : BitVec :=
  { bits := v % 2 ^ POINTER_SIZE_IN_BITS, len := POINTER_SIZE_IN_BITS }

/-- `BitVec::from_int_with_len` (masks the word down to `len` bits). -/
def from_int_with_len (v : ℕ) (len : ℕ) : BitVec :=
  { bits := v &&& make_mask len, len := len }

/-- `BitVec::get`: test bit `idx` of the storage word.  The source asserts
`idx < len`; the total model reads `false` there for well-formed vectors
(bits beyond `len` are zero). -/
def get (bv : BitVec) (idx : ℕ) : Bool := bv.bits.testBit idx

/-- `BitVec::begins_with` -/
def begins_with (self pfx : BitVec) : Bool :=
  if self.len < pfx.len then false
  else (self.bits &&& make_mask pfx.len) == (pfx.bits &&& make_mask pfx.len)

/-- The `while same_bits % 2 == 1` loop of `common_prefix`, with explicit
fuel (the loop runs at most `log2` of its argument many times, so fuel `n`
on input `n` reproduces it exactly; see
`countTrailingOnesAux_testBit_self`). -/
def countTrailingOnesAux : ℕ → ℕ → ℕ
  | 0, _ => 0
  | fuel + 1, n =>
    if n % 2 = 1 then countTrailingOnesAux fuel (n / 2) + 1 else 0

/-- The number of trailing one bits of `n`. -/
def countTrailingOnes (n : ℕ) : ℕ := countTrailingOnesAux n n

/-- `BitVec::common_prefix`.  `!(cmp1 ^ cmp2)` is 64-bit complement,
modelled by xor with the all-ones word. -/
def common_prefix (v1 v2 : BitVec) : BitVec :=
  let min_len := min v1.len v2.len
  let cmp1 := v1.bits
  let cmp2 := v2.bits
  let mask := make_mask min_len
  let same_bits := ((cmp1 ^^^ cmp2) ^^^ (2 ^ POINTER_SIZE_IN_BITS - 1)) &&& mask
  let count_prefix := countTrailingOnes same_bits
  from_int_with_len cmp1 count_prefix

/-- `BitVec::back` -/
def back (bv : BitVec) : Bool := bv.get (bv.len - 1)

/-- Well-formedness: all bits beyond `len` are zero (the representation
invariant stated in the spec and maintained by every constructor). -/
def wf (bv : BitVec) : Prop := bv.bits < 2 ^ bv.len

end BitVec

/-! ### Patricia tree (`datatype/patricia_tree_impl.rs`).  The `Rc` sharing
is a performance device (pointer-equality short-circuits do not change
results); the model keeps the plain tree.  Rust's `Node` enum: -/

inductive Node (V : Type) where
  | leaf : BitVec → V → Node V
  | branch : BitVec → Node V → Node V → Node V
deriving DecidableEq

namespace Node

variable {V : Type}

/-- `Node::key_or_prefix` -/
def key_or_prefix : Node V → BitVec
  | leaf k _ => k
  | branch p _ _ => p

/-- `Node::make_branch`: compute the common prefix of the two roots, and put
the subtree whose next bit is 0 on the left.  The source asserts the two
keys differ and that the branching bit is in range; under those conditions
the model agrees with it. -/
def make_branch (one other : Node V) : Node V :=
  let v1 := one.key_or_prefix
  let v2 := other.key_or_prefix
  let common := BitVec.common_prefix v1 v2
  let b1 := v1.get common.len
  if !b1 then branch common one other else branch common other one

/-- `Node::update_node_by_key` on a present node (the `Some` arm of the
source; the `None` arm is inlined at the call sites of
`update_node_by_key`). -/
def updateNode (key : BitVec) (op : Option (Node V) → Option (Node V)) :
    Node V → Option (Node V)
  | leaf node_key value =>
    if node_key = key then op (some (leaf node_key value))
    else
      match op none with
      | some new_node => some (make_branch new_node (leaf node_key value))
      | none => some (leaf node_key value)
  | branch pfx left right =>
    if key.begins_with pfx then
      if !(key.get pfx.len) then
        match updateNode key op left with
        | some new_left => some (make_branch new_left right)
        | none => some right
      else
        match updateNode key op right with
        | some new_right => some (make_branch left new_right)
        | none => some left
    else
      match op none with
      | some new_node => some (make_branch new_node (branch pfx left right))
      | none => some (branch pfx left right)

/-- `Node::update_node_by_key` -/
def update_node_by_key (maybe_node : Option (Node V)) (key : BitVec)
    (op : Option (Node V) → Option (Node V)) : Option (Node V) :=
  match maybe_node with
  | some n => updateNode key op n
  | none => op none

/-- `Node::find_node_by_key` -/
def find_node_by_key : Option (Node V) → BitVec → Option (Node V)
  | none, _ => none
  | some (leaf key value), lookup_key =>
    if key = lookup_key then some (leaf key value) else none
  | some (branch pfx left right), lookup_key =>
    if pfx.len < lookup_key.len then
      if !(lookup_key.get pfx.len) then find_node_by_key (some left) lookup_key
      else find_node_by_key (some right) lookup_key
    else if pfx = lookup_key then some (branch pfx left right)
    else none

/-- `Node::find_leaf_by_key` -/
def find_leaf_by_key (maybe_node : Option (Node V)) (lookup_key : BitVec) :
    Option (Node V) :=
  match find_node_by_key maybe_node lookup_key with
  | some (leaf k v) => some (leaf k v)
  | _ => none

/-- `Node::contains_leaf_with_key` -/
def contains_leaf_with_key (maybe_node : Option (Node V))
    (lookup_key : BitVec) : Bool :=
  (find_leaf_by_key maybe_node lookup_key).isSome

end Node

/-- `PatriciaTree<V>`: an optional root. -/
structure PatriciaTree (V : Type) where
  root : Option (Node V)
deriving DecidableEq

namespace PatriciaTree

variable {V : Type}

/-- `PatriciaTree::new` -/
def new : PatriciaTree V := { root := none }

/-- `PatriciaTree::is_empty` -/
def is_empty (t : PatriciaTree V) : Bool := t.root.isNone

/-- `PatriciaTree::insert` -/
def insert (t : PatriciaTree V) (key : BitVec) (value : V) : PatriciaTree V :=
  { root := Node.update_node_by_key t.root key
      (fun _ => some (Node.leaf key value)) }

/-- `PatriciaTree::get` -/
def get (t : PatriciaTree V) (key : BitVec) : Option V :=
  match Node.find_leaf_by_key t.root key with
  | some (Node.leaf _ v) => some v
  | _ => none

/-- `PatriciaTree::contains_key` -/
def contains_key (t : PatriciaTree V) (key : BitVec) : Bool :=
  (t.get key).isSome

/-- `PatriciaTree::remove` -/
def remove (t : PatriciaTree V) (key : BitVec) : PatriciaTree V :=
  { root := Node.update_node_by_key t.root key (fun _ => none) }

end PatriciaTree

/-! Well-formedness of Patricia trees over keys of a uniform width `W` (the
typed wrappers `PatriciaTreeMap`/`PatriciaTreeSet` convert every key with a
fixed-width `Into<BitVec>` conversion).  `wfN W n` is the structural
invariant stated in the spec: every branch prefix is a proper prefix of
both subtrees' roots, the two subtrees disagree on the bit right after the
prefix, and every key has width `W` with no bits beyond the length. -/

namespace Node

variable {V : Type}

/-- Constraint placed by a branch with prefix `p` on a child `c` on side
`b : Bool` (false = left, true = right). -/
def childOk (c : Node V) (p : BitVec) (b : Bool) : Prop :=
  p.len < c.key_or_prefix.len ∧
    c.key_or_prefix.begins_with p = true ∧
    c.key_or_prefix.bits.testBit p.len = b

/-- Structural well-formedness at key width `W`. -/
def wfN (W : ℕ) : Node V → Prop
  | leaf k _ => k.len = W ∧ k.wf
  | branch p l r =>
    p.len < W ∧ p.wf ∧ childOk l p false ∧ childOk r p true ∧ wfN W l ∧ wfN W r

/-- The abstraction function: the (finite, disjoint-by-wf) key-value map a
node denotes.  For well-formed trees `<|>` is unambiguous because the two
subtrees hold disjoint key sets. -/
def sem : Node V → BitVec → Option V
  | leaf k v, key => if key = k then some v else none
  | branch _ l r, key => (sem l key).orElse (fun _ => sem r key)

/-- Inheritance of root-label constraints through an update: any strict
common prefix (together with the following bit) shared by the updated key
`k` and the old root label is still carried by the new root label.  This is
the invariant that lets a parent branch rebuild itself around an updated
child. -/
def kopInherit (k : Sparta.BitVec) (n m : Node V) : Prop :=
  ∀ (q : Sparta.BitVec) (b : Bool),
    q.len < k.len → q.len < n.key_or_prefix.len →
    k.begins_with q = true → n.key_or_prefix.begins_with q = true →
    k.bits.testBit q.len = b → n.key_or_prefix.bits.testBit q.len = b →
    (q.len < m.key_or_prefix.len ∧ m.key_or_prefix.begins_with q = true
      ∧ m.key_or_prefix.bits.testBit q.len = b)

end Node

/-- Tree-level well-formedness and semantics. -/
def PatriciaTree.wf {V : Type} (W : ℕ) (t : PatriciaTree V) : Prop :=
  ∀ n, t.root = some n → Node.wfN W n

def PatriciaTree.sem {V : Type} (t : PatriciaTree V) (key : BitVec) : Option V :=
  match t.root with
  | none => none
  | some n => Node.sem n key

/-! ### `PatriciaTreeMap` (`datatype/patricia_tree_map.rs`).  The Rust map is
generic over `K: Into<BitVec>` and converts each key on entry; the model
takes the already-converted `BitVec` keys. -/

structure PatriciaTreeMap (V : Type) where
  storage : PatriciaTree V
deriving DecidableEq

namespace PatriciaTreeMap

variable {V : Type}

def new : PatriciaTreeMap V := { storage := PatriciaTree.new }

def is_empty (m : PatriciaTreeMap V) : Bool := m.storage.is_empty

/-- `PatriciaTreeMap::upsert` -/
def upsert (m : PatriciaTreeMap V) (key : BitVec) (value : V) :
    PatriciaTreeMap V :=
  { storage := m.storage.insert key value }

def contains_key (m : PatriciaTreeMap V) (key : BitVec) : Bool :=
  m.storage.contains_key key

def get (m : PatriciaTreeMap V) (key : BitVec) : Option V :=
  m.storage.get key

def remove (m : PatriciaTreeMap V) (key : BitVec) : PatriciaTreeMap V :=
  { storage := m.storage.remove key }

def wf (W : ℕ) (m : PatriciaTreeMap V) : Prop := m.storage.wf W

end PatriciaTreeMap

/-! ### Patricia-tree-backed abstract environment and partition
(`abstract_environment.rs` lines 265-379, `abstract_partition.rs` lines
252-369). -/

inductive PatriciaTreeMapAbstractEnvironment (D : Type) where
  | Value : PatriciaTreeMap D → PatriciaTreeMapAbstractEnvironment D
  | Bottom : PatriciaTreeMapAbstractEnvironment D
deriving DecidableEq

namespace PatriciaTreeMapAbstractEnvironment

variable {D : Type}

def bindings : PatriciaTreeMapAbstractEnvironment D → Option (PatriciaTreeMap D)
  | Value m => some m
  | Bottom => none

/-- `get`: `⊥` on Bottom, the binding when present, else the domain's `⊤`. -/
def get (dops : DomainOps D) (e : PatriciaTreeMapAbstractEnvironment D)
    (v : BitVec) : D :=
  match e with
  | Bottom => dops.bottom
  | Value m =>
    match m.get v with
    | some d => d
    | none => dops.top

/-- `set`: remove on `⊤`, collapse to Bottom on `⊥`, upsert otherwise. -/
def set (dops : DomainOps D) (e : PatriciaTreeMapAbstractEnvironment D)
    (v : BitVec) (d : D) : PatriciaTreeMapAbstractEnvironment D :=
  match e with
  | Bottom => Bottom
  | Value m =>
    if dops.is_top d then Value (m.remove v)
    else if dops.is_bottom d then Bottom
    else Value (m.upsert v d)

def is_bottom : PatriciaTreeMapAbstractEnvironment D → Bool
  | Bottom => true
  | _ => false

end PatriciaTreeMapAbstractEnvironment

inductive PatriciaTreeMapAbstractPartition (D : Type) where
  | Top : PatriciaTreeMapAbstractPartition D
  | Value : PatriciaTreeMap D → PatriciaTreeMapAbstractPartition D
deriving DecidableEq

namespace PatriciaTreeMapAbstractPartition

variable {D : Type}

def bindings : PatriciaTreeMapAbstractPartition D → Option (PatriciaTreeMap D)
  | Value m => some m
  | Top => none

/-- `get`: `⊤` on Top, the binding when present, else the domain's `⊥`. -/
def get (dops : DomainOps D) (e : PatriciaTreeMapAbstractPartition D)
    (l : BitVec) : D :=
  match e with
  | Top => dops.top
  | Value m =>
    match m.get l with
    | some d => d
    | none => dops.bottom

/-- `set`: a no-op on Top; remove on `⊥`, upsert otherwise. -/
def set (dops : DomainOps D) (e : PatriciaTreeMapAbstractPartition D)
    (l : BitVec) (d : D) : PatriciaTreeMapAbstractPartition D :=
  match e with
  | Top => Top
  | Value m =>
    if dops.is_bottom d then Value (m.remove l)
    else Value (m.upsert l d)

def is_top : PatriciaTreeMapAbstractPartition D → Bool
  | Top => true
  | _ => false

end PatriciaTreeMapAbstractPartition

/-! ### WPO construction (`wpo.rs`, `WeakPartialOrderingImpl`).  Loops carry
explicit fuel; for every run on which the Rust construction terminates, a
large enough fuel reproduces it.  Hash-set/hash-map iteration orders (which
Rust leaves unspecified) are resolved to sorted order. -/

/-- Association-list read with default (Rust `HashMap::get(..).unwrap_or`). -/
def alGetD {α : Type} (m : List (ℕ × α)) (k : ℕ) (d : α) : α :=
  ((m.find? (fun p => p.1 == k)).map Prod.snd).getD d

/-- Association-list write (Rust `HashMap::insert`). -/
def alInsert {α : Type} (m : List (ℕ × α)) (k : ℕ) (v : α) : List (ℕ × α) :=
  (k, v) :: m.filter (fun p => ¬ p.1 == k)

/-- Rust `map.entry(k).or_default()` followed by a mutation `f`. -/
def alUpdate {α : Type} (m : List (ℕ × α)) (d : α) (k : ℕ) (f : α → α) :
    List (ℕ × α) :=
  alInsert m k (f (alGetD m k d))

/-- In-place list element update (Rust `vec[i] = ..` / `&mut vec[i]`);
out-of-range indices (a panic in Rust) leave the list unchanged. -/
def listModify {α : Type} : List α → ℕ → (α → α) → List α
  | [], _, _ => []
  | x :: xs, 0, f => f x :: xs
  | x :: xs, i + 1, f => x :: listModify xs i f

/-- Sorted insertion without duplicates (Rust `BTreeSet::insert`). -/
def btreeInsert (x : ℕ) : List ℕ → List ℕ
  | [] => [x]
  | y :: ys =>
    if x < y then x :: y :: ys
    else if x = y then y :: ys
    else y :: btreeInsert x ys

/-- Sorted-association increment (Rust
`num_outer_preds.entry(idx).or_default() += 1`; sorted order stands in for
the unspecified HashMap order). -/
def sortedAssocInc (k : ℕ) : List (ℕ × ℕ) → List (ℕ × ℕ)
  | [] => [(k, 1)]
  | (a, c) :: rest =>
    if k < a then (k, 1) :: (a, c) :: rest
    else if k = a then (a, c + 1) :: rest
    else (a, c) :: sortedAssocInc k rest

/-- A union-find on `0..n` (petgraph `UnionFind`).  Which physical element
roots a merged set is irrelevant to the WPO algorithm: every union is
immediately followed by a write indexed at `find` of the merged set, so any
correct union-find yields the same observable results. -/
structure UnionFind where
  parent : List ℕ

namespace UnionFind

def new (n : ℕ) : UnionFind := { parent := List.range n }

def findAux (p : List ℕ) : ℕ → ℕ → ℕ
  | 0, x => x
  | fuel + 1, x =>
    let px := p.getD x x
    if px = x then x else findAux p fuel px

def find (u : UnionFind) (x : ℕ) : ℕ := findAux u.parent u.parent.length x

def union (u : UnionFind) (x y : ℕ) : UnionFind :=
  let rx := u.find x
  let ry := u.find y
  if rx = ry then u else { parent := u.parent.set rx ry }

end UnionFind

namespace WpoNode

/-- `WpoNode::add_successor` (insert into the sorted successor set). -/
def add_successor (n : WpoNode) (idx : ℕ) : WpoNode :=
  { n with data := { n.data with successors := btreeInsert idx n.data.successors } }

/-- `WpoNode::add_predecessor` -/
def add_predecessor (n : WpoNode) (idx : ℕ) : WpoNode :=
  { n with data := { n.data with predessors := btreeInsert idx n.data.predessors } }

/-- `WpoNode::is_successor` -/
def is_successor (n : WpoNode) (idx : ℕ) : Bool := n.data.successors.contains idx

/-- `WpoNode::inc_num_outer_preds` (asserts the node is an Exit in Rust). -/
def inc_num_outer_preds (n : WpoNode) (idx : ℕ) : WpoNode :=
  { n with data := { n.data with
      num_outer_preds := sortedAssocInc idx n.data.num_outer_preds } }

end WpoNode

/-- The mutable state of `WeakPartialOrderingImpl` together with the local
variables of `build` and `build_auxilary`. -/
structure BuildState where
  nodes : List WpoNode
  toplevel : List ℕ
  post_dfn : List (ℕ × ℕ)
  dfn : List (ℕ × ℕ)
  dfn_to_node : List ℕ
  cross_fwd_edges : List (ℕ × List (ℕ × ℕ))
  back_preds : List (ℕ × List ℕ)
  non_back_preds : List (ℕ × List ℕ)
  next_dfn : ℕ
  dfn_to_wpo_idx : List ℕ
  next_idx : ℕ
  dft_dsets : UnionFind
  next_post_dfn : ℕ
  visited : List (ℕ × Bool)
  ancestor : List (ℕ × ℕ)
  dfs_stack : List (ℕ × Bool × ℕ)
  dsets : UnionFind
  exit_next_dfn : ℕ
  rep : List ℕ
  exit : List ℕ
  origin : List (List (ℕ × ℕ))
  for_outer_preds : List (ℕ × ℕ)
  components_sizes : List ℕ
  parent : List (ℕ × ℕ)

namespace BuildState

/-- `WeakPartialOrderingImpl::new` plus zero-initialized locals. -/
def initial (size : ℕ) (root : ℕ) : BuildState :=
  { nodes := [], toplevel := [], post_dfn := [], dfn := [], dfn_to_node := []
    cross_fwd_edges := [], back_preds := [], non_back_preds := []
    next_dfn := 1, dfn_to_wpo_idx := [], next_idx := 0
    dft_dsets := UnionFind.new (size + 1), next_post_dfn := 1
    visited := [], ancestor := [], dfs_stack := [(root, false, 0)]
    dsets := UnionFind.new 0, exit_next_dfn := 0, rep := [], exit := []
    origin := [], for_outer_preds := [], components_sizes := [], parent := [] }

/-- `WeakPartialOrderingImpl::add_node` -/
def add_node (st : BuildState) (dfn_i vertex sz : ℕ) (ty : WpoNodeType) :
    BuildState :=
  { st with
    dfn_to_wpo_idx := st.dfn_to_wpo_idx.set dfn_i st.next_idx
    next_idx := st.next_idx + 1
    nodes := st.nodes ++
      [WpoNode.new ty (st.dfn_to_node.getD (vertex - 1) 0) sz] }

/-- `WeakPartialOrderingImpl::index_of` -/
def index_of (st : BuildState) (dfn_i : ℕ) : ℕ :=
  st.dfn_to_wpo_idx.getD dfn_i 0

/-- `WeakPartialOrderingImpl::add_successor` -/
def add_successor (st : BuildState) (from_dfn to_dfn exit_dfn : ℕ)
    (outer_pred : Bool) : BuildState :=
  let from_idx := st.index_of from_dfn
  let to_idx := st.index_of to_dfn
  if ((st.nodes.getD from_idx (WpoNode.plain 0 0)).is_successor to_idx) then st
  else
    { st with
      for_outer_preds :=
        if outer_pred then st.for_outer_preds ++ [(to_idx, st.index_of exit_dfn)]
        else st.for_outer_preds
      nodes := listModify
        (listModify st.nodes from_idx (fun n => n.add_successor to_idx))
        to_idx (fun n => n.add_predecessor from_idx) }

/-- One iteration of the DFS loop of `build_auxilary` (pop one stack entry). -/
def dfsStep (succ_nodes : ℕ → List ℕ) (st : BuildState) : BuildState :=
  match st.dfs_stack with
  | [] => st
  | (node, finished, pred) :: rest =>
    let st := { st with dfs_stack := rest }
    if finished then
      let st := { st with
        post_dfn := alInsert st.post_dfn node st.next_post_dfn
        next_post_dfn := st.next_post_dfn + 1 }
      let vertex := alGetD st.dfn node 0
      let st := { st with visited := alInsert st.visited vertex true }
      let dsets := st.dft_dsets.union vertex pred
      { st with
        dft_dsets := dsets
        ancestor := alInsert st.ancestor (dsets.find pred) pred }
    else if alGetD st.dfn node 0 ≠ 0 then
      -- Skip forward edges.
      st
    else
      let vertex := st.next_dfn
      let st := { st with
        next_dfn := vertex + 1
        dfn_to_node := st.dfn_to_node ++ [node]
        dfn := alInsert st.dfn node vertex
        ancestor := alInsert st.ancestor vertex vertex
        dfs_stack := (node, true, pred) :: st.dfs_stack }
      let st := (succ_nodes node).reverse.foldl
        (fun st succ_node =>
          let succ := alGetD st.dfn succ_node 0
          if succ = 0 then
            { st with dfs_stack := (succ_node, false, vertex) :: st.dfs_stack }
          else if alGetD st.visited succ false then
            let lca := alGetD st.ancestor (st.dft_dsets.find succ) 0
            { st with cross_fwd_edges :=
                alUpdate st.cross_fwd_edges [] lca (fun l => l ++ [(vertex, succ)]) }
          else
            { st with back_preds :=
                alUpdate st.back_preds [] succ (fun l => l ++ [vertex]) })
        st
      if pred ≠ 0 then
        { st with non_back_preds :=
            alUpdate st.non_back_preds [] vertex (fun l => l ++ [pred]) }
      else st

/-- The DFS worklist loop of `build_auxilary`, with fuel. -/
def dfsLoop (succ_nodes : ℕ → List ℕ) : ℕ → BuildState → BuildState
  | 0, st => st
  | fuel + 1, st =>
    match st.dfs_stack with
    | [] => st
    | _ :: _ => dfsLoop succ_nodes fuel (dfsStep succ_nodes st)

/-- The worklist closure of step 3 of `build` (collect the non-root members
of `h`'s SCC), with fuel.  The resulting set is the least fixpoint and does
not depend on the processing order. -/
def nestedLoop (st : BuildState) (h : ℕ) :
    ℕ → List ℕ → List ℕ → List ℕ
  | 0, nested, _ => nested
  | _ + 1, nested, [] => nested
  | fuel + 1, nested, v :: worklist =>
    let step := (alGetD st.non_back_preds v []).foldl
      (fun nw p =>
        let rep_p := st.rep.getD (st.dsets.find p) 0
        if ¬ nw.1.contains rep_p ∧ rep_p ≠ h then
          (btreeInsert rep_p nw.1, rep_p :: nw.2)
        else nw)
      (nested, worklist)
    nestedLoop st h fuel step.1 step.2

/-- One iteration (index `h`, descending) of the component-discovery loop of
`build` (steps 1-8 of §4.K). -/
def phase2Step (st : BuildState) (h : ℕ) : BuildState :=
  -- Step 1: restore cross/forward edges.
  let st := (alGetD st.cross_fwd_edges h []).foldl
    (fun st uv =>
      let rep_v := st.rep.getD (st.dsets.find uv.2) 0
      { st with
        non_back_preds := alUpdate st.non_back_preds [] rep_v (fun l => l ++ [uv.1])
        origin := listModify st.origin rep_v (fun l => l ++ [uv]) })
    st
  -- Step 2: scan back predecessors.
  let scan := (alGetD st.back_preds h []).foldl
    (fun acc v =>
      if v ≠ h then (btreeInsert (st.rep.getD (st.dsets.find v) 0) acc.1, acc.2)
      else (acc.1, true))
    (([] : List ℕ), false)
  let backpreds_h := scan.1
  let is_scc := scan.2 ∨ ¬ backpreds_h.isEmpty
  -- Step 3: close the nested SCC.
  let nested_sccs_h := nestedLoop st h (2 * st.next_dfn + 1) backpreds_h backpreds_h
  if ¬ is_scc then
    let st := { st with components_sizes := st.components_sizes.set h 1 }
    st.add_node h h 1 WpoNodeType.Plain
  else
    let sz_h := nested_sccs_h.foldl
      (fun sz v => sz + st.components_sizes.getD v 0) 2
    let st := { st with components_sizes := st.components_sizes.set h sz_h }
    -- Step 5: the Exit node, then the Head node, at consecutive indices.
    let x_h := st.exit_next_dfn
    let st := { st with exit_next_dfn := st.exit_next_dfn + 1 }
    let st := st.add_node x_h h sz_h WpoNodeType.Exit
    let st := st.add_node h h sz_h WpoNodeType.Head
    -- Step 6: scheduling edges inside the component.
    let st :=
      if backpreds_h.isEmpty then st.add_successor h x_h x_h false
      else backpreds_h.foldl
        (fun st p => st.add_successor (st.exit.getD p 0) x_h x_h false) st
    -- Step 7: scheduling edges between nested SCCs.
    let st := nested_sccs_h.foldl
      (fun st v =>
        (st.origin.getD v []).foldl
          (fun st uvv =>
            let x_u := st.exit.getD (st.rep.getD (st.dsets.find uvv.1) 0) 0
            let x_v := st.exit.getD v 0
            st.add_successor x_u uvv.2 x_v (x_v ≠ v))
          st)
      st
    -- Step 8: merge the nested SCCs into h.
    let st := nested_sccs_h.foldl
      (fun st v =>
        let dsets := st.dsets.union v h
        { st with
          dsets := dsets
          rep := st.rep.set (dsets.find v) h
          parent := alInsert st.parent (st.index_of v) (st.index_of h) })
      st
    { st with exit := st.exit.set h x_h }

/-- One iteration of the toplevel loop of `build` (scheduling constraints
between maximal SCCs). -/
def toplevelStep (st : BuildState) (v : ℕ) : BuildState :=
  if st.rep.getD (st.dsets.find v) 0 = v then
    let v_idx := st.index_of v
    let st := { st with
      toplevel := st.toplevel ++ [v_idx]
      parent := alInsert st.parent v_idx v_idx }
    (st.origin.getD v []).foldl
      (fun st uvv =>
        let x_u := st.exit.getD (st.rep.getD (st.dsets.find uvv.1) 0) 0
        let x_v := st.exit.getD v 0
        st.add_successor x_u uvv.2 x_v (x_v ≠ v))
      st
  else st

/-- The `while x != x_max` walk of the outer-predecessor counting, with
fuel. -/
def outerWalk (v x_max : ℕ) : ℕ → ℕ → ℕ → BuildState → BuildState
  | 0, _, _, st => st
  | fuel + 1, h, x, st =>
    if x ≠ x_max then
      let st := { st with
        nodes := listModify st.nodes x (fun n => n.inc_num_outer_preds v) }
      let h := alGetD st.parent h 0
      outerWalk v x_max fuel h (h - 1) st
    else
      { st with
        nodes := listModify st.nodes x (fun n => n.inc_num_outer_preds v) }

/-- One deferred pair of the outer-predecessor counting loop. -/
def outerStep (st : BuildState) (p : ℕ × ℕ) : BuildState :=
  let v := p.1
  let x_max := p.2
  let h :=
    if (st.nodes.getD v (WpoNode.plain 0 0)).is_head then v
    else alGetD st.parent v 0
  outerWalk v x_max (st.nodes.length + 1) h (h - 1) st

end BuildState

/-- `WeakPartialOrderingImpl::build` (both stages), with DFS fuel. -/
def wpoBuild (size : ℕ) (root : ℕ) (succ_nodes : ℕ → List ℕ) (fuel : ℕ) :
    WeakPartialOrdering :=
  -- Step 1: auxiliary structures via DFS.
  let st := BuildState.dfsLoop succ_nodes fuel (BuildState.initial size root)
  -- Step 2: initialization of the second phase.
  let n := st.next_dfn
  let st := { st with
    dsets := UnionFind.new n
    exit_next_dfn := n
    rep := List.range n
    exit := List.range n
    origin := (List.range n).map
      (fun v => (alGetD st.non_back_preds v []).map (fun p => (p, v)))
    dfn_to_wpo_idx := List.replicate (2 * n) 0
    for_outer_preds := []
    components_sizes := List.replicate n 0
    parent := [] }
  -- Component discovery for h = n-1 down to 1.
  let st := ((List.range' 1 (n - 1)).reverse).foldl BuildState.phase2Step st
  -- Toplevel constraints for v = 1 .. n-1.
  let st := (List.range' 1 (n - 1)).foldl BuildState.toplevelStep st
  -- Outer-predecessor counts.
  let st := st.for_outer_preds.foldl BuildState.outerStep st
  { nodes := st.nodes, toplevel := st.toplevel, post_dfn := st.post_dfn }

/-- `WeakPartialOrdering::new` (`wpo.rs` lines 166-183): a root with no
successors short-circuits to a single Plain vertex; otherwise the full
construction runs. -/
def wpoNew (root : ℕ) (size : ℕ) (succ_nodes : ℕ → List ℕ) (fuel : ℕ) :
    WeakPartialOrdering :=
  if (succ_nodes root).isEmpty then
    { nodes := [WpoNode.plain root 1], toplevel := [0], post_dfn := [(root, 1)] }
  else
    wpoBuild size root succ_nodes fuel

/-! ### Concrete instances used by witnesses: the two-node graph
`1 → 2, 2 → 2` (the `test_wpo_single_scc_at_end` graph), its WPO, an
identity-ish transformer over the powerset domain, and two iterator
states. -/

def wsucc : ℕ → List ℕ :=
  fun n => if n = 1 then [2] else if n = 2 then [2] else []

def wwpo : WeakPartialOrdering := wpoNew 1 2 wsucc 100

def wgraph : GraphOps :=
  { entry := 1
    predecessors := fun n => if n = 2 then [0, 1] else []
    source := fun e => if e = 0 then 1 else 2 }

def wtransf : TransformerOps PowersetLattice :=
  { analyze_node := fun _ d => d, analyze_edge := fun _ d => d }

def wstateA : IterState PowersetLattice :=
  { entry_states := fun n => if n = 2 then some (PowersetLattice.Value {5}) else none
    exit_states := fun n =>
      if n = 1 then some (PowersetLattice.Value {1})
      else if n = 2 then some (PowersetLattice.Value {9}) else none
    wpo_counter := fun _ => 0
    worklist := []
    local_iterations := fun _ => 0
    global_iterations := fun _ => 0 }

def wstateB : IterState PowersetLattice :=
  { wstateA with
    entry_states := fun n =>
      if n = 2 then some (PowersetLattice.Value {1, 9}) else none }

/-- The layout invariant preserved by the component-discovery loop: the
node list is a concatenation of chunks, each either a single Plain vertex
or an Exit vertex immediately followed by its Head. -/
inductive Chunked : List WpoNodeType → Prop where
  | nil : Chunked []
  | plain {l : List WpoNodeType} : Chunked l →
      Chunked (l ++ [WpoNodeType.Plain])
  | pair {l : List WpoNodeType} : Chunked l →
      Chunked (l ++ [WpoNodeType.Exit, WpoNodeType.Head])

/-- The list of node kinds of a build state. -/
def nodesTy (st : BuildState) : List WpoNodeType :=
  st.nodes.map WpoNode.ty

/-! ## Theorems -/

/-! ### The fixpoint driver at Exit vertices (claims C2 and C3). -/

/-- Claim C2: when an Exit vertex is processed and the freshly recomputed
candidate entry state for its head `n` is not `⊑` the stored entry state,
the stored state is updated with `extrapolate`, and `extrapolate` performs
a join exactly when the global iteration count of `n` is 0 and a widening
otherwise. -/
theorem claim_C2 {D : Type} (dops : DomainOps D) (g : GraphOps)
    (t : TransformerOps D) (wpo : WeakPartialOrdering) (init_value : D)
    (entry_idx idx : ℕ) (s : IterState D)
    (hexit : wpo.is_exit idx = true)
    (hleq : dops.leq
        (FixpointIter.compute_entry_state dops g s.exit_states t init_value
          (wpo.get_node (wpo.get_head_of_exit idx)) dops.bottom)
        ((s.entry_states (wpo.get_node (wpo.get_head_of_exit idx))).getD
          dops.bottom) = false) :
    (FixpointIter.process_node dops g t wpo init_value entry_idx idx
        s).entry_states (wpo.get_node (wpo.get_head_of_exit idx))
      = some (FixpointIter.extrapolate dops s.global_iterations
          (wpo.get_node (wpo.get_head_of_exit idx))
          ((s.entry_states (wpo.get_node (wpo.get_head_of_exit idx))).getD
            dops.bottom)
          (FixpointIter.compute_entry_state dops g s.exit_states t init_value
            (wpo.get_node (wpo.get_head_of_exit idx)) dops.bottom))
    ∧ (∀ (n : ℕ) (cur nw : D),
        FixpointIter.extrapolate dops s.global_iterations n cur nw
          = if s.global_iterations n = 0 then dops.join cur nw
            else dops.widen cur nw) := by
  constructor
  · simp only [FixpointIter.process_node, hexit, hleq, if_true, Bool.false_eq_true,
      if_false, updFn]
  · intro n cur nw
    rfl

/-- Claim C3 (stabilized Exit): when the recomputed entry state `new` for
the head `n` satisfies `new ⊑ entry_states[n]`, the stored state becomes
`new`, the local iteration counter of `n` resets to 0, the successors of
the Exit are released through the same counter/enqueue procedure as for
Plain/Head vertices, and nothing else (global counters, exit states, other
entry states, outer-predecessor credits) is touched. -/
theorem claim_C3 {D : Type} (dops : DomainOps D) (g : GraphOps)
    (t : TransformerOps D) (wpo : WeakPartialOrdering) (init_value : D)
    (entry_idx idx : ℕ) (s : IterState D)
    (hexit : wpo.is_exit idx = true)
    (hleq : dops.leq
        (FixpointIter.compute_entry_state dops g s.exit_states t init_value
          (wpo.get_node (wpo.get_head_of_exit idx)) dops.bottom)
        ((s.entry_states (wpo.get_node (wpo.get_head_of_exit idx))).getD
          dops.bottom) = true) :
    ((FixpointIter.process_node dops g t wpo init_value entry_idx idx
        s).entry_states (wpo.get_node (wpo.get_head_of_exit idx))
      = some (FixpointIter.compute_entry_state dops g s.exit_states t
          init_value (wpo.get_node (wpo.get_head_of_exit idx)) dops.bottom))
    ∧ (∀ m, m ≠ wpo.get_node (wpo.get_head_of_exit idx) →
        (FixpointIter.process_node dops g t wpo init_value entry_idx idx
          s).entry_states m = s.entry_states m)
    ∧ ((FixpointIter.process_node dops g t wpo init_value entry_idx idx
        s).local_iterations (wpo.get_node (wpo.get_head_of_exit idx)) = 0)
    ∧ ((FixpointIter.process_node dops g t wpo init_value entry_idx idx
        s).global_iterations = s.global_iterations)
    ∧ ((FixpointIter.process_node dops g t wpo init_value entry_idx idx
        s).exit_states = s.exit_states)
    ∧ (((FixpointIter.process_node dops g t wpo init_value entry_idx idx
          s).wpo_counter,
        (FixpointIter.process_node dops g t wpo init_value entry_idx idx
          s).worklist)
        = FixpointIter.releaseSuccessors wpo idx (updFn s.wpo_counter idx 0)
            s.worklist)
    ∧ (∀ (jdx : ℕ) (s2 : IterState D), wpo.is_exit jdx = false →
        ((FixpointIter.process_node dops g t wpo init_value entry_idx jdx
            s2).wpo_counter,
          (FixpointIter.process_node dops g t wpo init_value entry_idx jdx
            s2).worklist)
          = FixpointIter.releaseSuccessors wpo jdx (updFn s2.wpo_counter jdx 0)
              s2.worklist) := by
  refine ⟨?_, ?_, ?_, ?_, ?_, ?_, ?_⟩
  · simp only [FixpointIter.process_node, hexit, hleq, if_true, updFn]
  · intro m hm
    simp only [FixpointIter.process_node, hexit, hleq, if_true, updFn]
    simp [hm]
  · simp only [FixpointIter.process_node, hexit, hleq, if_true, updFn]
  · simp only [FixpointIter.process_node, hexit, hleq, if_true, updFn]
  · simp only [FixpointIter.process_node, hexit, hleq, if_true, updFn]
  · simp only [FixpointIter.process_node, hexit, hleq, if_true, updFn]
  · intro jdx s2 hplain
    simp only [FixpointIter.process_node, FixpointIter.analyze_vertex, hplain,
      Bool.false_eq_true, if_false, updFn]

/-- Witness for claim C2 at the concrete loop graph: the Exit vertex is WPO
index 0, the head node is node 2, its stored entry state `{5}` does not
cover the candidate `{1, 9}`, and the first pass joins them. -/
theorem claim_C2_witness :
    wwpo.is_exit 0 = true
    ∧ powersetOps.leq
        (FixpointIter.compute_entry_state powersetOps wgraph wstateA.exit_states
          wtransf (PowersetLattice.Value {99})
          (wwpo.get_node (wwpo.get_head_of_exit 0)) powersetOps.bottom)
        ((wstateA.entry_states (wwpo.get_node (wwpo.get_head_of_exit 0))).getD
          powersetOps.bottom) = false
    ∧ (FixpointIter.process_node powersetOps wgraph wtransf wwpo
          (PowersetLattice.Value {99}) wwpo.get_entry 0 wstateA).entry_states
          (wwpo.get_node (wwpo.get_head_of_exit 0))
        = some (FixpointIter.extrapolate powersetOps wstateA.global_iterations
            (wwpo.get_node (wwpo.get_head_of_exit 0))
            ((wstateA.entry_states
              (wwpo.get_node (wwpo.get_head_of_exit 0))).getD powersetOps.bottom)
            (FixpointIter.compute_entry_state powersetOps wgraph
              wstateA.exit_states wtransf (PowersetLattice.Value {99})
              (wwpo.get_node (wwpo.get_head_of_exit 0)) powersetOps.bottom)) := by
  have h := claim_C2 powersetOps wgraph wtransf wwpo (PowersetLattice.Value {99})
    wwpo.get_entry 0 wstateA (by decide) (by decide)
  exact ⟨by decide, by decide, h.1⟩

/-- Witness for claim C3 at the concrete loop graph: the stored entry state
`{1, 9}` covers the candidate `{1, 9}`, so the Exit stabilizes and stores
the candidate, resetting the local iteration count. -/
theorem claim_C3_witness :
    wwpo.is_exit 0 = true
    ∧ powersetOps.leq
        (FixpointIter.compute_entry_state powersetOps wgraph wstateB.exit_states
          wtransf (PowersetLattice.Value {99})
          (wwpo.get_node (wwpo.get_head_of_exit 0)) powersetOps.bottom)
        ((wstateB.entry_states (wwpo.get_node (wwpo.get_head_of_exit 0))).getD
          powersetOps.bottom) = true
    ∧ (FixpointIter.process_node powersetOps wgraph wtransf wwpo
          (PowersetLattice.Value {99}) wwpo.get_entry 0 wstateB).entry_states
          (wwpo.get_node (wwpo.get_head_of_exit 0))
        = some (FixpointIter.compute_entry_state powersetOps wgraph
            wstateB.exit_states wtransf (PowersetLattice.Value {99})
            (wwpo.get_node (wwpo.get_head_of_exit 0)) powersetOps.bottom)
    ∧ (FixpointIter.process_node powersetOps wgraph wtransf wwpo
          (PowersetLattice.Value {99}) wwpo.get_entry 0 wstateB).local_iterations
          (wwpo.get_node (wwpo.get_head_of_exit 0)) = 0 := by
  have h := claim_C3 powersetOps wgraph wtransf wwpo (PowersetLattice.Value {99})
    wwpo.get_entry 0 wstateB (by decide) (by decide)
  exact ⟨by decide, by decide, h.1, h.2.2.1⟩

/-! ### BitVec `common_prefix` (claim C9). -/

theorem make_mask_eq (l : ℕ) : make_mask l = 2 ^ l - 1 := by
  unfold make_mask
  split
  · subst l
    rfl
  · rfl

theorem make_mask_testBit (l i : ℕ) :
    (make_mask l).testBit i = decide (i < l) := by
  rw [make_mask_eq]
  exact Nat.testBit_two_pow_sub_one l i

/-- With sufficient fuel, the bit right after the counted trailing ones is
0 (the loop of `common_prefix` stops at the first 0 bit). -/
theorem countTrailingOnesAux_testBit_self :
    ∀ (fuel n : ℕ), n < 2 ^ fuel →
      n.testBit (Sparta.BitVec.countTrailingOnesAux fuel n) = false
  | 0, n, h => by
    have hn : n = 0 := by
      simp only [pow_zero] at h
      omega
    subst hn
    simp [Sparta.BitVec.countTrailingOnesAux]
  | fuel + 1, n, h => by
    rw [Sparta.BitVec.countTrailingOnesAux]
    split
    · rw [Nat.testBit_succ]
      have hdiv : n / 2 < 2 ^ fuel := by
        rw [pow_succ] at h
        omega
      exact countTrailingOnesAux_testBit_self fuel (n / 2) hdiv
    · rename_i hodd
      rw [Nat.testBit_zero]
      exact decide_eq_false hodd

theorem countTrailingOnes_testBit_self (n : ℕ) :
    n.testBit (Sparta.BitVec.countTrailingOnes n) = false :=
  countTrailingOnesAux_testBit_self n n (Nat.lt_two_pow n)

/-- All bits before the trailing-ones count are 1. -/
theorem countTrailingOnesAux_testBit_lt :
    ∀ (fuel n i : ℕ), i < Sparta.BitVec.countTrailingOnesAux fuel n →
      n.testBit i = true
  | 0, _, _, hi => by
    simp [Sparta.BitVec.countTrailingOnesAux] at hi
  | fuel + 1, n, i, hi => by
    rw [Sparta.BitVec.countTrailingOnesAux] at hi
    split at hi
    · rename_i hodd
      match i with
      | 0 =>
        rw [Nat.testBit_zero]
        simp [hodd]
      | j + 1 =>
        rw [Nat.testBit_succ]
        exact countTrailingOnesAux_testBit_lt fuel (n / 2) j (by omega)
    · omega

theorem countTrailingOnes_testBit_lt (n : ℕ) :
    ∀ i, i < Sparta.BitVec.countTrailingOnes n → n.testBit i = true :=
  fun i hi => countTrailingOnesAux_testBit_lt n n i hi

theorem countTrailingOnes_le (n m : ℕ) (h : n < 2 ^ m) :
    Sparta.BitVec.countTrailingOnes n ≤ m := by
  by_contra hc
  have ht := countTrailingOnes_testBit_lt n m (by omega)
  rw [Nat.testBit_eq_false_of_lt h] at ht
  exact absurd ht (by simp)

/-- The full specification of `common_prefix` for word-sized BitVecs: its
length is at most `min(a.len, b.len)`, both inputs begin with it, it is
maximal (its length reaches the minimum or the next bit differs), the two
inputs agree on every bit below its length, and it is the masked low chunk
of `a`'s word. -/
theorem common_prefix_spec (a b : Sparta.BitVec)
    (ha : a.len ≤ POINTER_SIZE_IN_BITS) (hb : b.len ≤ POINTER_SIZE_IN_BITS) :
    (Sparta.BitVec.common_prefix a b).len ≤ min a.len b.len
    ∧ a.begins_with (Sparta.BitVec.common_prefix a b) = true
    ∧ b.begins_with (Sparta.BitVec.common_prefix a b) = true
    ∧ ((Sparta.BitVec.common_prefix a b).len = min a.len b.len
        ∨ a.get (Sparta.BitVec.common_prefix a b).len
            ≠ b.get (Sparta.BitVec.common_prefix a b).len)
    ∧ (∀ i, i < (Sparta.BitVec.common_prefix a b).len →
        a.bits.testBit i = b.bits.testBit i)
    ∧ (Sparta.BitVec.common_prefix a b).bits
        = a.bits &&& make_mask (Sparta.BitVec.common_prefix a b).len
    ∧ (Sparta.BitVec.common_prefix a b).wf := by
  set m := min a.len b.len with hm
  set sb := ((a.bits ^^^ b.bits) ^^^ (2 ^ POINTER_SIZE_IN_BITS - 1)) &&&
    make_mask m with hsb
  set t := Sparta.BitVec.countTrailingOnes sb with ht
  have hcp : Sparta.BitVec.common_prefix a b =
      { bits := a.bits &&& make_mask t, len := t } := by
    simp only [Sparta.BitVec.common_prefix, Sparta.BitVec.from_int_with_len,
      ← hm, ← hsb, ← ht]
  have hsb_lt : sb < 2 ^ m := by
    have h1 : sb ≤ make_mask m := Nat.and_le_right
    have h2 : make_mask m < 2 ^ m := by
      rw [make_mask_eq]
      have : 0 < 2 ^ m := Nat.pos_pow_of_pos m (by omega)
      omega
    omega
  have htle : t ≤ m := countTrailingOnes_le sb m hsb_lt
  -- Bits strictly below t agree between a and b.
  have hagree : ∀ i, i < t → a.bits.testBit i = b.bits.testBit i := by
    intro i hi
    have h1 : sb.testBit i = true := countTrailingOnes_testBit_lt sb i hi
    rw [hsb, Nat.testBit_land, Nat.testBit_xor, Nat.testBit_xor,
      make_mask_testBit, Nat.testBit_two_pow_sub_one] at h1
    have him : i < m := by omega
    have hi64 : i < POINTER_SIZE_IN_BITS := by
      have : m ≤ POINTER_SIZE_IN_BITS := le_trans (min_le_left _ _) ha
      omega
    simp [him, hi64] at h1
    exact h1
  refine ⟨?_, ?_, ?_, ?_, ?_, ?_, ?_⟩
  · rw [hcp]
    exact htle
  · rw [hcp]
    simp only [Sparta.BitVec.begins_with]
    have : ¬ a.len < t := by omega
    rw [if_neg this]
    simp only [beq_iff_eq]
    apply Nat.eq_of_testBit_eq
    intro i
    simp [Nat.testBit_land, Bool.and_assoc]
  · rw [hcp]
    simp only [Sparta.BitVec.begins_with]
    have : ¬ b.len < t := by omega
    rw [if_neg this]
    simp only [beq_iff_eq]
    apply Nat.eq_of_testBit_eq
    intro i
    simp only [Nat.testBit_land, make_mask_testBit]
    by_cases hit : i < t
    · simp [hagree i hit, hit]
    · simp [hit]
  · by_cases hteq : t = m
    · left
      rw [hcp]
      exact hteq
    · right
      rw [hcp]
      have htm : t < m := by omega
      have h0 : sb.testBit t = false := countTrailingOnes_testBit_self sb
      rw [hsb, Nat.testBit_land, Nat.testBit_xor, Nat.testBit_xor,
        make_mask_testBit, Nat.testBit_two_pow_sub_one] at h0
      have ht64 : t < POINTER_SIZE_IN_BITS := by
        have : m ≤ POINTER_SIZE_IN_BITS := le_trans (min_le_left _ _) ha
        omega
      simp [htm, ht64] at h0
      simp [Sparta.BitVec.get, h0]
  · intro i hi
    rw [hcp] at hi
    exact hagree i hi
  · rw [hcp]
  · rw [hcp, Sparta.BitVec.wf]
    show a.bits &&& make_mask t < 2 ^ t
    have h1 : a.bits &&& make_mask t ≤ make_mask t := Nat.and_le_right
    have h2 : make_mask t < 2 ^ t := by
      rw [make_mask_eq]
      have : 0 < 2 ^ t := Nat.pos_pow_of_pos t (by omega)
      omega
    omega

/-- Claim C9: for BitVecs of length at most the word width,
`p = common_prefix(a, b)` has `p.len ≤ min(a.len, b.len)` (so the internal
assertion `count_prefix <= min_len` never fires), both inputs begin with
`p`, and `p` is maximal: either `p.len` reaches `min(a.len, b.len)` or the
bit at position `p.len` differs between `a` and `b`. -/
theorem claim_C9 (a b : Sparta.BitVec) (ha : a.len ≤ POINTER_SIZE_IN_BITS)
    (hb : b.len ≤ POINTER_SIZE_IN_BITS) :
    (Sparta.BitVec.common_prefix a b).len ≤ min a.len b.len
    ∧ a.begins_with (Sparta.BitVec.common_prefix a b) = true
    ∧ b.begins_with (Sparta.BitVec.common_prefix a b) = true
    ∧ ((Sparta.BitVec.common_prefix a b).len = min a.len b.len
        ∨ a.get (Sparta.BitVec.common_prefix a b).len
            ≠ b.get (Sparta.BitVec.common_prefix a b).len) := by
  have h := common_prefix_spec a b ha hb
  exact ⟨h.1, h.2.1, h.2.2.1, h.2.2.2.1⟩

/-- Witness for claim C9 at the Rust unit test's example:
`common_prefix(0b1010010 : 8 bits, 0b1110010 : 8 bits) = (0b10010 : 5
bits)`. -/
theorem claim_C9_witness :
    (Sparta.BitVec.from_int_with_len 82 8).len ≤ POINTER_SIZE_IN_BITS
    ∧ (Sparta.BitVec.from_int_with_len 114 8).len ≤ POINTER_SIZE_IN_BITS
    ∧ Sparta.BitVec.common_prefix (Sparta.BitVec.from_int_with_len 82 8)
        (Sparta.BitVec.from_int_with_len 114 8)
        = Sparta.BitVec.from_int_with_len 18 5
    ∧ ((Sparta.BitVec.common_prefix (Sparta.BitVec.from_int_with_len 82 8)
          (Sparta.BitVec.from_int_with_len 114 8)).len
        ≤ min (Sparta.BitVec.from_int_with_len 82 8).len
            (Sparta.BitVec.from_int_with_len 114 8).len
      ∧ (Sparta.BitVec.from_int_with_len 82 8).begins_with
          (Sparta.BitVec.common_prefix (Sparta.BitVec.from_int_with_len 82 8)
            (Sparta.BitVec.from_int_with_len 114 8)) = true) := by
  have h := claim_C9 (Sparta.BitVec.from_int_with_len 82 8)
    (Sparta.BitVec.from_int_with_len 114 8) (by decide) (by decide)
  exact ⟨by decide, by decide, by decide, h.1, h.2.1⟩

/-! ### Prefix-order helper lemmas on BitVec, used by the Patricia-tree
proofs. -/

theorem wf_testBit_ge {a : Sparta.BitVec} (hw : a.wf) {i : ℕ}
    (hi : a.len ≤ i) : a.bits.testBit i = false := by
  apply Nat.testBit_eq_false_of_lt
  calc a.bits < 2 ^ a.len := hw
    _ ≤ 2 ^ i := Nat.pow_le_pow_right (by omega) hi

theorem begins_with_len {a p : Sparta.BitVec}
    (h : a.begins_with p = true) : p.len ≤ a.len := by
  by_contra hc
  simp only [Sparta.BitVec.begins_with, if_pos (by omega : a.len < p.len)] at h
  cases h

theorem begins_with_testBit {a p : Sparta.BitVec}
    (h : a.begins_with p = true) {i : ℕ} (hi : i < p.len) :
    a.bits.testBit i = p.bits.testBit i := by
  have hlen : p.len ≤ a.len := begins_with_len h
  simp only [Sparta.BitVec.begins_with, if_neg (by omega : ¬ a.len < p.len),
    beq_iff_eq] at h
  have := congrArg (fun x => x.testBit i) h
  simpa [Nat.testBit_land, make_mask_testBit, hi] using this

theorem begins_with_intro {a p : Sparta.BitVec} (hlen : p.len ≤ a.len)
    (h : ∀ i, i < p.len → a.bits.testBit i = p.bits.testBit i) :
    a.begins_with p = true := by
  simp only [Sparta.BitVec.begins_with, if_neg (by omega : ¬ a.len < p.len),
    beq_iff_eq]
  apply Nat.eq_of_testBit_eq
  intro i
  simp only [Nat.testBit_land, make_mask_testBit]
  by_cases hi : i < p.len
  · simp [h i hi, hi]
  · simp [hi]

theorem begins_with_self (a : Sparta.BitVec) : a.begins_with a = true :=
  begins_with_intro (le_refl _) (fun _ _ => rfl)

theorem begins_with_trans {a b c : Sparta.BitVec}
    (hab : a.begins_with b = true) (hbc : b.begins_with c = true) :
    a.begins_with c = true := by
  have h1 : c.len ≤ b.len := begins_with_len hbc
  have h2 : b.len ≤ a.len := begins_with_len hab
  apply begins_with_intro (by omega)
  intro i hi
  rw [begins_with_testBit hab (by omega), begins_with_testBit hbc hi]

theorem eq_of_begins_with_of_len {a b : Sparta.BitVec} (hwa : a.wf)
    (hwb : b.wf) (h : a.begins_with b = true) (hl : a.len = b.len) :
    a = b := by
  cases a with
  | mk abits alen =>
    cases b with
    | mk bbits blen =>
      simp only at hl
      subst hl
      have : abits = bbits := by
        apply Nat.eq_of_testBit_eq
        intro i
        by_cases hi : i < alen
        · exact begins_with_testBit h hi
        · rw [wf_testBit_ge hwa (by simpa using hi), wf_testBit_ge hwb (by simpa using hi)]
      rw [this]

/-! ### Patricia-tree structural lemmas (towards claim C8). -/

theorem kop_len_le {V : Type} {W : ℕ} {n : Node V} (h : Node.wfN W n) :
    n.key_or_prefix.len ≤ W := by
  cases n with
  | leaf k v =>
    simp only [Node.wfN] at h
    simp [ Node.key_or_prefix, h.1]
  | branch p l r =>
    simp only [Node.wfN] at h
    simp only [ Node.key_or_prefix]
    omega

theorem kop_wf {V : Type} {W : ℕ} {n : Node V} (h : Node.wfN W n) :
    n.key_or_prefix.wf := by
  cases n with
  | leaf k v =>
    simp only [Node.wfN] at h
    simpa [ Node.key_or_prefix] using h.2
  | branch p l r =>
    simp only [Node.wfN] at h
    simpa [ Node.key_or_prefix] using h.2.1

/-- Every key present in a well-formed node begins with the node's root
label, has width `W` and is well-formed. -/
theorem sem_begins {V : Type} {W : ℕ} :
    ∀ {n : Node V}, Node.wfN W n → ∀ {k : Sparta.BitVec},
      Node.sem n k ≠ none →
      k.begins_with n.key_or_prefix = true ∧ k.len = W ∧ k.wf
  | Node.leaf k0 v0, h, k, hk => by
    simp only [Node.sem] at hk
    by_cases he : k = k0
    · subst he
      simp only [Node.wfN] at h
      exact ⟨begins_with_self k, h.1, h.2⟩
    · simp [he] at hk
  | Node.branch p l r, h, k, hk => by
    simp only [Node.sem] at hk
    simp only [Node.wfN] at h
    rcases hcase : Node.sem l k with _ | v
    · rw [hcase] at hk
      have hr : Node.sem r k ≠ none := by
        intro hno
        rw [hno] at hk
        exact hk rfl
      have ih := sem_begins h.2.2.2.2.2 hr
      exact ⟨begins_with_trans ih.1 h.2.2.2.1.2.1, ih.2⟩
    · have hl : Node.sem l k ≠ none := by rw [hcase]; simp
      have ih := sem_begins h.2.2.2.2.1 hl
      have hok := h.2.2.1
      simp only [Node.childOk] at hok
      exact ⟨begins_with_trans ih.1 hok.2.1, ih.2⟩

/-- Keys in the left subtree of a well-formed branch have bit `p.len`
clear; keys in the right subtree have it set. -/
theorem sem_bit {V : Type} {W : ℕ} {p : Sparta.BitVec} {l r : Node V}
    (h : Node.wfN W (Node.branch p l r)) {k : Sparta.BitVec} :
    (Node.sem l k ≠ none → k.bits.testBit p.len = false)
    ∧ (Node.sem r k ≠ none → k.bits.testBit p.len = true) := by
  simp only [Node.wfN] at h
  constructor
  · intro hl
    have hb := sem_begins h.2.2.2.2.1 hl
    have hok := h.2.2.1
    simp only [Node.childOk] at hok
    rw [begins_with_testBit hb.1 hok.1]
    exact hok.2.2
  · intro hr
    have hb := sem_begins h.2.2.2.2.2 hr
    have hok := h.2.2.2.1
    simp only [Node.childOk] at hok
    rw [begins_with_testBit hb.1 hok.1]
    exact hok.2.2

theorem orElse_none_right {α : Type} (a : Option α) :
    (a.orElse fun _ => none) = a := by
  cases a <;> rfl

/-- Through a well-formed branch, lookup reduces to the side selected by the
branching bit. -/
theorem sem_branch_reduce {V : Type} {W : ℕ} {p : Sparta.BitVec}
    {l r : Node V} (h : Node.wfN W (Node.branch p l r)) (k : Sparta.BitVec) :
    Node.sem (Node.branch p l r) k =
      if k.bits.testBit p.len = false then Node.sem l k else Node.sem r k := by
  simp only [Node.sem]
  by_cases hbit : k.bits.testBit p.len = false
  · rw [if_pos hbit]
    rcases hcase : Node.sem r k with _ | v
    · rw [orElse_none_right]
    · exfalso
      have := (sem_bit h).2 (by rw [hcase]; simp)
      rw [this] at hbit
      exact absurd hbit (by simp)
  · rw [if_neg hbit]
    rcases hcase : Node.sem l k with _ | v
    · rfl
    · exfalso
      have := (sem_bit h).1 (by rw [hcase]; simp)
      rw [this] at hbit
      exact absurd rfl hbit

/-- `find_leaf_by_key` computes the denotation on well-formed nodes. -/
theorem find_leaf_sem {V : Type} {W : ℕ} :
    ∀ {n : Node V}, Node.wfN W n → ∀ {k : Sparta.BitVec}, k.len = W →
      Node.find_leaf_by_key (some n) k
        = (Node.sem n k).map (fun v => Node.leaf k v)
  | Node.leaf k0 v0, h, k, hk => by
    simp only [Node.find_leaf_by_key, Node.find_node_by_key, Node.sem]
    by_cases he : k0 = k
    · subst he
      simp
    · rw [if_neg he, if_neg (fun hx => he hx.symm)]
      rfl
  | Node.branch p l r, h, k, hk => by
    have hwf := h
    simp only [Node.wfN] at h
    have hplen : p.len < k.len := by omega
    have hred := sem_branch_reduce hwf k
    simp only [Node.find_leaf_by_key, Node.find_node_by_key, if_pos hplen]
    by_cases hbit : k.bits.testBit p.len = false
    · simp only [Sparta.BitVec.get, hbit, Bool.not_false, if_pos trivial]
      rw [hred, if_pos hbit]
      have := find_leaf_sem h.2.2.2.2.1 hk (k := k)
      simpa [Node.find_leaf_by_key] using this
    · have hbit' : k.bits.testBit p.len = true := by
        simpa using hbit
      simp only [Sparta.BitVec.get, hbit', Bool.not_true, Bool.false_eq_true,
        if_false]
      rw [hred, if_neg hbit]
      have := find_leaf_sem h.2.2.2.2.2 hk (k := k)
      simpa [Node.find_leaf_by_key] using this

/-- Any strict common prefix-plus-bit shared by `u1` and `u2` is carried by
their common prefix. -/
theorem common_prefix_carries {u1 u2 q : Sparta.BitVec} {b : Bool}
    (h1 : u1.len ≤ POINTER_SIZE_IN_BITS) (h2 : u2.len ≤ POINTER_SIZE_IN_BITS)
    (hq1 : u1.begins_with q = true) (hq2 : u2.begins_with q = true)
    (hl1 : q.len < u1.len) (hl2 : q.len < u2.len)
    (hb1 : u1.bits.testBit q.len = b) (hb2 : u2.bits.testBit q.len = b) :
    q.len < (Sparta.BitVec.common_prefix u1 u2).len
    ∧ (Sparta.BitVec.common_prefix u1 u2).begins_with q = true
    ∧ (Sparta.BitVec.common_prefix u1 u2).bits.testBit q.len = b := by
  have spec := common_prefix_spec u1 u2 h1 h2
  set cp := Sparta.BitVec.common_prefix u1 u2 with hcp
  have hagree : ∀ i, i ≤ q.len → u1.bits.testBit i = u2.bits.testBit i := by
    intro i hi
    rcases Nat.lt_or_ge i q.len with hlt | hge
    · rw [begins_with_testBit hq1 hlt, begins_with_testBit hq2 hlt]
    · have : i = q.len := by omega
      subst this
      rw [hb1, hb2]
  have htgt : q.len < cp.len := by
    by_contra hc
    have hlt : cp.len < min u1.len u2.len := by omega
    rcases spec.2.2.2.1 with hmin | hdiff
    · omega
    · exact hdiff (by
        simp only [Sparta.BitVec.get]
        exact hagree cp.len (by omega))
  refine ⟨htgt, ?_, ?_⟩
  · apply begins_with_intro (by omega)
    intro i hi
    rw [spec.2.2.2.2.2.1, Nat.testBit_land, make_mask_testBit]
    have : i < cp.len := by omega
    simp [this, begins_with_testBit hq1 hi]
  · rw [spec.2.2.2.2.2.1, Nat.testBit_land, make_mask_testBit]
    simp [htgt, hb1]

/-- When `u1` and `u2` both extend `p` and disagree right after it, their
common prefix is exactly `p`. -/
theorem common_prefix_len_eq {u1 u2 p : Sparta.BitVec}
    (h1 : u1.len ≤ POINTER_SIZE_IN_BITS) (h2 : u2.len ≤ POINTER_SIZE_IN_BITS)
    (hq1 : u1.begins_with p = true) (hq2 : u2.begins_with p = true)
    (hl1 : p.len < u1.len) (hl2 : p.len < u2.len)
    (hdiff : u1.bits.testBit p.len ≠ u2.bits.testBit p.len)
    (hpwf : p.wf) :
    Sparta.BitVec.common_prefix u1 u2 = p := by
  have spec := common_prefix_spec u1 u2 h1 h2
  set cp := Sparta.BitVec.common_prefix u1 u2 with hcp
  have hge : p.len ≤ cp.len := by
    by_contra hc
    have hlt : cp.len < min u1.len u2.len := by omega
    rcases spec.2.2.2.1 with hmin | hd
    · omega
    · exact hd (by
        simp only [Sparta.BitVec.get]
        rw [begins_with_testBit hq1 (by omega), begins_with_testBit hq2 (by omega)])
  have hle : cp.len ≤ p.len := by
    by_contra hc
    exact hdiff (spec.2.2.2.2.1 p.len (by omega))
  have hlen : cp.len = p.len := by omega
  have hbits : cp.bits = p.bits := by
    apply Nat.eq_of_testBit_eq
    intro i
    rw [spec.2.2.2.2.2.1, Nat.testBit_land, make_mask_testBit, hlen]
    by_cases hi : i < p.len
    · simp [hi, begins_with_testBit hq1 hi]
    · have hfalse : p.bits.testBit i = false := wf_testBit_ge hpwf (by omega)
      simp [hi, hfalse]
  calc cp = ⟨cp.bits, cp.len⟩ := rfl
    _ = ⟨p.bits, p.len⟩ := by rw [hbits, hlen]
    _ = p := rfl

/-- Specification of `make_branch` when neither root label is a prefix of
the other (the cases where the Rust assertions hold): the result is a
well-formed branch labelled with the common prefix, denoting the union of
the two maps. -/
theorem make_branch_spec {V : Type} {W : ℕ} (hW : W ≤ POINTER_SIZE_IN_BITS)
    {c1 c2 : Node V} (h1 : Node.wfN W c1) (h2 : Node.wfN W c2)
    (hlt1 : (Sparta.BitVec.common_prefix c1.key_or_prefix c2.key_or_prefix).len
      < c1.key_or_prefix.len)
    (hlt2 : (Sparta.BitVec.common_prefix c1.key_or_prefix c2.key_or_prefix).len
      < c2.key_or_prefix.len) :
    Node.wfN W (Node.make_branch c1 c2)
    ∧ Node.key_or_prefix (Node.make_branch c1 c2)
        = Sparta.BitVec.common_prefix c1.key_or_prefix c2.key_or_prefix
    ∧ (∀ k2, Node.sem (Node.make_branch c1 c2) k2
        = (Node.sem c1 k2).orElse (fun _ => Node.sem c2 k2)) := by
  have hu1 : c1.key_or_prefix.len ≤ W := kop_len_le h1
  have hu2 : c2.key_or_prefix.len ≤ W := kop_len_le h2
  have spec := common_prefix_spec c1.key_or_prefix c2.key_or_prefix
    (by omega) (by omega)
  set cp := Sparta.BitVec.common_prefix c1.key_or_prefix c2.key_or_prefix
    with hcp
  have hdiff : c1.key_or_prefix.bits.testBit cp.len
      ≠ c2.key_or_prefix.bits.testBit cp.len := by
    rcases spec.2.2.2.1 with hmin | hd
    · omega
    · simpa [Sparta.BitVec.get] using hd
  have hcplen : cp.len < W := by omega
  -- The two well-formedness bundles, one per orientation.
  have hwfres : ∀ (x y : Node V), Node.wfN W x → Node.wfN W y →
      cp.len < x.key_or_prefix.len → cp.len < y.key_or_prefix.len →
      x.key_or_prefix.begins_with cp = true →
      y.key_or_prefix.begins_with cp = true →
      x.key_or_prefix.bits.testBit cp.len = false →
      y.key_or_prefix.bits.testBit cp.len = true →
      Node.wfN W (Node.branch cp x y) := by
    intro x y hx hy hlx hly hbx hby hbitx hbity
    refine ⟨hcplen, spec.2.2.2.2.2.2, ?_, ?_, hx, hy⟩
    · exact ⟨hlx, hbx, hbitx⟩
    · exact ⟨hly, hby, hbity⟩
  by_cases hb1 : c1.key_or_prefix.bits.testBit cp.len = false
  · have hb2 : c2.key_or_prefix.bits.testBit cp.len = true := by
      rcases Bool.eq_false_or_eq_true ( c2.key_or_prefix.bits.testBit cp.len)
        with h | h
      · exact h
      · rw [hb1, h] at hdiff
        exact absurd rfl hdiff
    have hmb : Node.make_branch c1 c2 = Node.branch cp c1 c2 := by
      simp only [Node.make_branch, Sparta.BitVec.get, ← hcp, hb1,
        Bool.not_false, if_pos]
    rw [hmb]
    refine ⟨hwfres c1 c2 h1 h2 hlt1 hlt2 spec.2.1 spec.2.2.1 hb1 hb2, rfl, ?_⟩
    intro k2
    rfl
  · have hb1' : c1.key_or_prefix.bits.testBit cp.len = true := by
      simpa using hb1
    have hb2 : c2.key_or_prefix.bits.testBit cp.len = false := by
      rcases Bool.eq_false_or_eq_true ( c2.key_or_prefix.bits.testBit cp.len)
        with h | h
      · rw [hb1', h] at hdiff
        exact absurd rfl hdiff
      · exact h
    have hmb : Node.make_branch c1 c2 = Node.branch cp c2 c1 := by
      simp only [Node.make_branch, Sparta.BitVec.get, ← hcp, hb1',
        Bool.not_true, Bool.false_eq_true, if_false]
    rw [hmb]
    have hwf := hwfres c2 c1 h2 h1 hlt2 hlt1 spec.2.2.1 spec.2.1 hb2 hb1'
    refine ⟨hwf, rfl, ?_⟩
    -- The two subtrees hold disjoint key sets, so the union is symmetric.
    intro k2
    have hdisj : Node.sem c2 k2 = none ∨ Node.sem c1 k2 = none := by
      by_cases hn2 : Node.sem c2 k2 = none
      · exact Or.inl hn2
      · right
        by_cases hn1 : Node.sem c1 k2 = none
        · exact hn1
        · exfalso
          have hbl := (sem_bit hwf).1 hn2
          have hbr := (sem_bit hwf).2 hn1
          rw [hbl] at hbr
          cases hbr
    simp only [Node.sem]
    rcases hdisj with hd | hd <;> rw [hd]
    · rw [orElse_none_right]
      rfl
    · rw [orElse_none_right]
      rfl

/-- Distinct well-formed BitVecs of the same length have a common prefix
strictly shorter than either. -/
theorem common_prefix_lt_of_ne {u1 u2 : Sparta.BitVec}
    (h1 : u1.len ≤ POINTER_SIZE_IN_BITS) (h2 : u2.len ≤ POINTER_SIZE_IN_BITS)
    (hw1 : u1.wf) (hw2 : u2.wf) (hlen : u1.len = u2.len) (hne : u1 ≠ u2) :
    (Sparta.BitVec.common_prefix u1 u2).len < u1.len
    ∧ (Sparta.BitVec.common_prefix u1 u2).len < u2.len := by
  have spec := common_prefix_spec u1 u2 h1 h2
  set cp := Sparta.BitVec.common_prefix u1 u2 with hcp
  by_contra hc
  have hcplen : cp.len = u1.len := by omega
  have he1 : u1 = cp :=
    eq_of_begins_with_of_len hw1 spec.2.2.2.2.2.2 spec.2.1 hcplen.symm
  have he2 : u2 = cp :=
    eq_of_begins_with_of_len hw2 spec.2.2.2.2.2.2 spec.2.2.1 (by omega)
  exact hne (he1.trans he2.symm)

/-- When `u1` does not begin with the shorter `u2`, their common prefix is
strictly shorter than `u2`. -/
theorem common_prefix_lt_of_not_begins {u1 u2 : Sparta.BitVec}
    (h1 : u1.len ≤ POINTER_SIZE_IN_BITS) (h2 : u2.len ≤ POINTER_SIZE_IN_BITS)
    (hlen : u2.len ≤ u1.len) (hnb : u1.begins_with u2 = false) :
    (Sparta.BitVec.common_prefix u1 u2).len < u2.len := by
  have spec := common_prefix_spec u1 u2 h1 h2
  set cp := Sparta.BitVec.common_prefix u1 u2 with hcp
  by_contra hc
  have : u1.begins_with u2 = true := by
    apply begins_with_intro hlen
    intro i hi
    exact spec.2.2.2.2.1 i (by omega)
  rw [this] at hnb
  cases hnb

/-- Inserting key `k` (via `update_node_by_key` with the insert operation)
into a well-formed node yields a well-formed node denoting the updated map;
the new root label still carries any strict common prefix-plus-bit shared
by `k` and the old root label. -/
theorem updateNode_insert {V : Type} {W : ℕ} (hW : W ≤ POINTER_SIZE_IN_BITS)
    (k : Sparta.BitVec) (v : V) (hk : k.len = W) (hkwf : k.wf) :
    ∀ (n : Node V), Node.wfN W n →
      ∃ m, Node.updateNode k (fun _ => some (Node.leaf k v)) n = some m
        ∧ Node.wfN W m
        ∧ (∀ k2, Node.sem m k2 = if k2 = k then some v else Node.sem n k2)
        ∧ Node.kopInherit k n m
  | Node.leaf k0 v0, h => by
    have hk0 : k0.len = W := h.1
    have hk0wf : k0.wf := h.2
    by_cases he : k0 = k
    · refine ⟨Node.leaf k v, ?_, ⟨hk, hkwf⟩, ?_, ?_⟩
      · simp only [Node.updateNode, if_pos he]
      · intro k2
        subst he
        by_cases h2 : k2 = k0 <;> simp [Node.sem, h2]
      · intro q b hq1 hq2 hq3 hq4 hq5 hq6
        exact ⟨hq1, hq3, hq5⟩
    · have hne : k ≠ k0 := fun hx => he hx.symm
      have hlt := @common_prefix_lt_of_ne k k0
        (by omega) (by omega) hkwf hk0wf (by omega) hne
      have hmb := @make_branch_spec V W hW (Node.leaf k v)
        (Node.leaf k0 v0) ⟨hk, hkwf⟩ h hlt.1 hlt.2
      refine ⟨Node.make_branch (Node.leaf k v) (Node.leaf k0 v0), ?_,
        hmb.1, ?_, ?_⟩
      · simp only [Node.updateNode, if_neg he]
      · intro k2
        rw [hmb.2.2 k2]
        by_cases h2 : k2 = k
        · simp only [Node.sem, if_pos h2]
          rfl
        · simp only [Node.sem, if_neg h2]
          rfl
      · intro q b hq1 hq2 hq3 hq4 hq5 hq6
        simp only [ Node.key_or_prefix] at hq2 hq4 hq6
        rw [hmb.2.1]
        exact @common_prefix_carries k k0 q b (by omega) (by omega)
          hq3 hq4 hq1 hq2 hq5 hq6
  | Node.branch p l r, h => by
    have hwfb : Node.wfN W (Node.branch p l r) := h
    have hp : p.len < W := h.1
    have hpwf : p.wf := h.2.1
    have hokl := h.2.2.1
    have hokr := h.2.2.2.1
    have hwl := h.2.2.2.2.1
    have hwr := h.2.2.2.2.2
    simp only [Node.childOk] at hokl hokr
    by_cases hbw : k.begins_with p = true
    · by_cases hbit : k.bits.testBit p.len = false
      · -- Descend into the left subtree.
        obtain ⟨ml, heq, hwml, hsem, hinh⟩ :=
          updateNode_insert hW k v hk hkwf l hwl
        have hi := hinh p false (by omega) hokl.1 hbw hokl.2.1 hbit hokl.2.2
        have hcpeq : Sparta.BitVec.common_prefix ml.key_or_prefix
            r.key_or_prefix = p := by
          apply common_prefix_len_eq
            (by have := kop_len_le hwml; omega)
            (by have := kop_len_le hwr; omega)
            hi.2.1 hokr.2.1 hi.1 hokr.1 ?_ hpwf
          rw [hi.2.2, hokr.2.2]
          simp
        have hmb := make_branch_spec hW hwml hwr
          (by rw [hcpeq]; exact hi.1) (by rw [hcpeq]; exact hokr.1)
        refine ⟨Node.make_branch ml r, ?_, hmb.1, ?_, ?_⟩
        · simp [Node.updateNode, hbw, Sparta.BitVec.get, hbit, heq]
        · intro k2
          rw [hmb.2.2 k2, hsem k2]
          by_cases h2 : k2 = k
          · simp only [if_pos h2]
            rfl
          · simp only [if_neg h2]
            rfl
        · intro q b hq1 hq2 hq3 hq4 hq5 hq6
          rw [hmb.2.1, hcpeq]
          exact ⟨hq2, hq4, hq6⟩
      · -- Descend into the right subtree.
        have hbit' : k.bits.testBit p.len = true := by simpa using hbit
        obtain ⟨mr, heq, hwmr, hsem, hinh⟩ :=
          updateNode_insert hW k v hk hkwf r hwr
        have hi := hinh p true (by omega) hokr.1 hbw hokr.2.1 hbit' hokr.2.2
        have hcpeq : Sparta.BitVec.common_prefix l.key_or_prefix
            mr.key_or_prefix = p := by
          apply common_prefix_len_eq
            (by have := kop_len_le hwl; omega)
            (by have := kop_len_le hwmr; omega)
            hokl.2.1 hi.2.1 hokl.1 hi.1 ?_ hpwf
          rw [hokl.2.2, hi.2.2]
          simp
        have hmb := make_branch_spec hW hwl hwmr
          (by rw [hcpeq]; exact hokl.1) (by rw [hcpeq]; exact hi.1)
        have hlnone : Node.sem l k = none := by
          by_contra hx
          have hb := (sem_bit hwfb).1 hx
          rw [hb] at hbit'
          cases hbit'
        refine ⟨Node.make_branch l mr, ?_, hmb.1, ?_, ?_⟩
        · simp [Node.updateNode, hbw, Sparta.BitVec.get, hbit', heq]
        · intro k2
          rw [hmb.2.2 k2, hsem k2]
          by_cases h2 : k2 = k
          · subst h2
            rw [hlnone]
            simp only [if_pos rfl]
            rfl
          · simp only [if_neg h2]
            rfl
        · intro q b hq1 hq2 hq3 hq4 hq5 hq6
          rw [hmb.2.1, hcpeq]
          exact ⟨hq2, hq4, hq6⟩
    · -- The key does not extend the branch prefix: branch off to the side.
      have hnb : k.begins_with p = false := by simpa using hbw
      have hlt2 := @common_prefix_lt_of_not_begins k p
        (by omega) (by omega) (by omega) hnb
      have hlt1 : (Sparta.BitVec.common_prefix k p).len < k.len := by omega
      have hmb := @make_branch_spec V W hW (Node.leaf k v)
        (Node.branch p l r) ⟨hk, hkwf⟩ hwfb hlt1 hlt2
      refine ⟨Node.make_branch (Node.leaf k v) (Node.branch p l r), ?_,
        hmb.1, ?_, ?_⟩
      · simp only [Node.updateNode, if_neg hbw]
      · intro k2
        rw [hmb.2.2 k2]
        by_cases h2 : k2 = k
        · simp only [Node.sem, if_pos h2]
          rfl
        · simp only [Node.sem, if_neg h2]
          rfl
      · intro q b hq1 hq2 hq3 hq4 hq5 hq6
        simp only [ Node.key_or_prefix] at hq2 hq4 hq6
        rw [hmb.2.1]
        exact @common_prefix_carries k p q b (by omega) (by omega)
          hq3 hq4 hq1 hq2 hq5 hq6

/-- Removing key `k` (via `update_node_by_key` with the delete operation)
from a well-formed node: the subtree disappears exactly when `k` was its
only key, and otherwise the result is well-formed, denotes the map without
`k`, and its root label still carries any strict common prefix-plus-bit
shared by `k` and the old root label. -/
theorem updateNode_remove {V : Type} {W : ℕ} (hW : W ≤ POINTER_SIZE_IN_BITS)
    (k : Sparta.BitVec) (hk : k.len = W) :
    ∀ (n : Node V), Node.wfN W n →
      (Node.updateNode k (fun _ => none) n = none →
        ∀ k2, k2 ≠ k → Node.sem n k2 = none)
      ∧ (∀ m, Node.updateNode k (fun _ => none) n = some m →
          Node.wfN W m
          ∧ (∀ k2, Node.sem m k2 = if k2 = k then none else Node.sem n k2)
          ∧ Node.kopInherit k n m)
  | Node.leaf k0 v0, h => by
    by_cases he : k0 = k
    · constructor
      · intro _ k2 hk2
        subst he
        simp only [Node.sem]
        rw [if_neg hk2]
      · intro m hm
        simp only [Node.updateNode, if_pos he] at hm
        cases hm
    · constructor
      · intro hnone
        simp only [Node.updateNode, if_neg he] at hnone
        cases hnone
      · intro m hm
        simp only [Node.updateNode, if_neg he] at hm
        have hm' : Node.leaf k0 v0 = m := by injection hm
        subst hm'
        refine ⟨h, ?_, ?_⟩
        · intro k2
          by_cases h2 : k2 = k
          · subst h2
            have hne2 : ¬ k2 = k0 := fun hx => he (Eq.symm hx)
            simp [Node.sem, hne2]
          · simp [h2]
        · intro q b hq1 hq2 hq3 hq4 hq5 hq6
          exact ⟨hq2, hq4, hq6⟩
  | Node.branch p l r, h => by
    have hwfb : Node.wfN W (Node.branch p l r) := h
    have hp : p.len < W := h.1
    have hpwf : p.wf := h.2.1
    have hokl := h.2.2.1
    have hokr := h.2.2.2.1
    have hwl := h.2.2.2.2.1
    have hwr := h.2.2.2.2.2
    simp only [Node.childOk] at hokl hokr
    by_cases hbw : k.begins_with p = true
    · by_cases hbit : k.bits.testBit p.len = false
      · -- Descend into the left subtree.
        have IH := updateNode_remove hW k hk l hwl
        have hred : Node.updateNode k (fun _ => none) (Node.branch p l r)
            = (match Node.updateNode k (fun _ => none) l with
               | some nl => some (Node.make_branch nl r)
               | none => some r) := by
          simp [Node.updateNode, hbw, Sparta.BitVec.get, hbit]
        have hrk : Node.sem r k = none := by
          by_contra hx
          have hb := (sem_bit hwfb).2 hx
          rw [hb] at hbit
          cases hbit
        constructor
        · intro hnone
          rw [hred] at hnone
          rcases hcase : Node.updateNode k (fun _ => none) l with _ | nl <;>
            rw [hcase] at hnone <;> cases hnone
        · intro m hm
          rw [hred] at hm
          rcases hcase : Node.updateNode k (fun _ => none) l with _ | nl <;>
            rw [hcase] at hm
          · have hm' : r = m := by injection hm
            subst hm'
            have hall := IH.1 hcase
            refine ⟨hwr, ?_, ?_⟩
            · intro k2
              by_cases h2 : k2 = k
              · subst h2
                simp [hrk]
              · rw [if_neg h2]
                have : Node.sem l k2 = none := hall k2 h2
                simp only [Node.sem, this]
                rfl
            · intro q b hq1 hq2 hq3 hq4 hq5 hq6
              simp only [ Node.key_or_prefix] at hq2 hq4 hq6
              refine ⟨?_, begins_with_trans hokr.2.1 hq4, ?_⟩
              · have := hokr.1
                omega
              · rw [begins_with_testBit hokr.2.1 (by omega)]
                exact hq6
          · have hm' : Node.make_branch nl r = m := by injection hm
            subst hm'
            obtain ⟨hwnl, hsem, hinh⟩ := IH.2 nl hcase
            have hi := hinh p false (by omega) hokl.1 hbw hokl.2.1 hbit hokl.2.2
            have hcpeq : Sparta.BitVec.common_prefix nl.key_or_prefix
                r.key_or_prefix = p := by
              apply common_prefix_len_eq
                (by have := kop_len_le hwnl; omega)
                (by have := kop_len_le hwr; omega)
                hi.2.1 hokr.2.1 hi.1 hokr.1 ?_ hpwf
              rw [hi.2.2, hokr.2.2]
              simp
            have hmb := make_branch_spec hW hwnl hwr
              (by rw [hcpeq]; exact hi.1) (by rw [hcpeq]; exact hokr.1)
            refine ⟨hmb.1, ?_, ?_⟩
            · intro k2
              rw [hmb.2.2 k2, hsem k2]
              by_cases h2 : k2 = k
              · subst h2
                rw [if_pos rfl, if_pos rfl, hrk]
                rfl
              · simp only [if_neg h2]
                rfl
            · intro q b hq1 hq2 hq3 hq4 hq5 hq6
              rw [hmb.2.1, hcpeq]
              exact ⟨hq2, hq4, hq6⟩
      · -- Descend into the right subtree.
        have hbit' : k.bits.testBit p.len = true := by simpa using hbit
        have IH := updateNode_remove hW k hk r hwr
        have hred : Node.updateNode k (fun _ => none) (Node.branch p l r)
            = (match Node.updateNode k (fun _ => none) r with
               | some nr => some (Node.make_branch l nr)
               | none => some l) := by
          simp [Node.updateNode, hbw, Sparta.BitVec.get, hbit']
        have hlk : Node.sem l k = none := by
          by_contra hx
          have hb := (sem_bit hwfb).1 hx
          rw [hb] at hbit'
          cases hbit'
        constructor
        · intro hnone
          rw [hred] at hnone
          rcases hcase : Node.updateNode k (fun _ => none) r with _ | nr <;>
            rw [hcase] at hnone <;> cases hnone
        · intro m hm
          rw [hred] at hm
          rcases hcase : Node.updateNode k (fun _ => none) r with _ | nr <;>
            rw [hcase] at hm
          · have hm' : l = m := by injection hm
            subst hm'
            have hall := IH.1 hcase
            refine ⟨hwl, ?_, ?_⟩
            · intro k2
              by_cases h2 : k2 = k
              · subst h2
                simp [hlk]
              · rw [if_neg h2]
                have : Node.sem r k2 = none := hall k2 h2
                simp only [Node.sem, this]
                rw [orElse_none_right]
            · intro q b hq1 hq2 hq3 hq4 hq5 hq6
              simp only [ Node.key_or_prefix] at hq2 hq4 hq6
              refine ⟨?_, begins_with_trans hokl.2.1 hq4, ?_⟩
              · have := hokl.1
                omega
              · rw [begins_with_testBit hokl.2.1 (by omega)]
                exact hq6
          · have hm' : Node.make_branch l nr = m := by injection hm
            subst hm'
            obtain ⟨hwnr, hsem, hinh⟩ := IH.2 nr hcase
            have hi := hinh p true (by omega) hokr.1 hbw hokr.2.1 hbit' hokr.2.2
            have hcpeq : Sparta.BitVec.common_prefix l.key_or_prefix
                nr.key_or_prefix = p := by
              apply common_prefix_len_eq
                (by have := kop_len_le hwl; omega)
                (by have := kop_len_le hwnr; omega)
                hokl.2.1 hi.2.1 hokl.1 hi.1 ?_ hpwf
              rw [hokl.2.2, hi.2.2]
              simp
            have hmb := make_branch_spec hW hwl hwnr
              (by rw [hcpeq]; exact hokl.1) (by rw [hcpeq]; exact hi.1)
            refine ⟨hmb.1, ?_, ?_⟩
            · intro k2
              rw [hmb.2.2 k2, hsem k2]
              by_cases h2 : k2 = k
              · subst h2
                rw [if_pos rfl, if_pos rfl, hlk]
                rfl
              · simp only [if_neg h2]
                rfl
            · intro q b hq1 hq2 hq3 hq4 hq5 hq6
              rw [hmb.2.1, hcpeq]
              exact ⟨hq2, hq4, hq6⟩
    · -- The key does not extend the branch prefix: nothing to remove.
      constructor
      · intro hnone
        simp only [Node.updateNode, if_neg hbw] at hnone
        cases hnone
      · intro m hm
        simp only [Node.updateNode, if_neg hbw] at hm
        have hm' : Node.branch p l r = m := by injection hm
        subst hm'
        refine ⟨hwfb, ?_, ?_⟩
        · intro k2
          by_cases h2 : k2 = k
          · subst h2
            rw [if_pos rfl]
            by_contra hx
            have hbg := (sem_begins hwfb hx).1
            simp only [ Node.key_or_prefix] at hbg
            rw [hbg] at hbw
            exact hbw rfl
          · simp [h2]
        · intro q b hq1 hq2 hq3 hq4 hq5 hq6
          exact ⟨hq2, hq4, hq6⟩

theorem tree_get_sem {V : Type} {W : ℕ} (t : PatriciaTree V)
    (hwf : t.wf W) (k : Sparta.BitVec) (hk : k.len = W) :
    t.get k = t.sem k := by
  rcases hroot : t.root with _ | n
  · simp [PatriciaTree.get, PatriciaTree.sem, hroot, Node.find_leaf_by_key,
      Node.find_node_by_key]
  · have hwn := hwf n hroot
    simp only [PatriciaTree.get, PatriciaTree.sem, hroot]
    rw [find_leaf_sem hwn hk]
    rcases Node.sem n k with _ | v <;> rfl

theorem tree_insert_spec {V : Type} {W : ℕ} (hW : W ≤ POINTER_SIZE_IN_BITS)
    (t : PatriciaTree V) (hwf : t.wf W) (k : Sparta.BitVec) (v : V)
    (hk : k.len = W) (hkwf : k.wf) :
    (t.insert k v).wf W
    ∧ (∀ k2, (t.insert k v).sem k2 = if k2 = k then some v
        else t.sem k2) := by
  rcases hroot : t.root with _ | n
  · constructor
    · intro m hm
      simp only [PatriciaTree.insert, Node.update_node_by_key, hroot] at hm
      have hm' : Node.leaf k v = m := by injection hm
      subst hm'
      exact ⟨hk, hkwf⟩
    · intro k2
      simp only [PatriciaTree.insert, PatriciaTree.sem, Node.update_node_by_key,
        hroot, Node.sem]
  · obtain ⟨m, heq, hwm, hsem, _⟩ :=
      updateNode_insert hW k v hk hkwf n (hwf n hroot)
    constructor
    · intro m2 hm2
      simp only [PatriciaTree.insert, Node.update_node_by_key, hroot, heq]
        at hm2
      have hm' : m = m2 := by injection hm2
      subst hm'
      exact hwm
    · intro k2
      simp only [PatriciaTree.insert, PatriciaTree.sem, Node.update_node_by_key,
        hroot, heq]
      exact hsem k2

theorem tree_remove_spec {V : Type} {W : ℕ} (hW : W ≤ POINTER_SIZE_IN_BITS)
    (t : PatriciaTree V) (hwf : t.wf W) (k : Sparta.BitVec)
    (hk : k.len = W) :
    (t.remove k).wf W
    ∧ (∀ k2, (t.remove k).sem k2 = if k2 = k then none else t.sem k2) := by
  rcases hroot : t.root with _ | n
  · constructor
    · intro m hm
      simp only [PatriciaTree.remove, Node.update_node_by_key, hroot] at hm
      cases hm
    · intro k2
      simp only [PatriciaTree.remove, PatriciaTree.sem, Node.update_node_by_key,
        hroot]
      split <;> rfl
  · have hrem := updateNode_remove hW k hk n (hwf n hroot)
    rcases hcase : Node.updateNode k (fun _ => none) n with _ | m
    · have hall := hrem.1 hcase
      constructor
      · intro m hm
        simp only [PatriciaTree.remove, Node.update_node_by_key, hroot, hcase]
          at hm
        cases hm
      · intro k2
        simp only [PatriciaTree.remove, PatriciaTree.sem,
          Node.update_node_by_key, hroot, hcase]
        by_cases h2 : k2 = k
        · simp [h2]
        · rw [if_neg h2]
          exact (hall k2 h2).symm
    · obtain ⟨hwm, hsem, _⟩ := hrem.2 m hcase
      constructor
      · intro m2 hm2
        simp only [PatriciaTree.remove, Node.update_node_by_key, hroot, hcase]
          at hm2
        have hm' : m = m2 := by injection hm2
        subst hm'
        exact hwm
      · intro k2
        simp only [PatriciaTree.remove, PatriciaTree.sem,
          Node.update_node_by_key, hroot, hcase]
        exact hsem k2

/-- Claim C8: on a well-formed Patricia tree with keys of uniform width,
`insert` followed by `get` round-trips, every other key's lookup is
unchanged (inserting an existing key just replaces the value), `remove`
makes `contains_key` false and leaves all other keys unaffected; both
operations preserve well-formedness. -/
theorem claim_C8 {V : Type} (W : ℕ) (hW : W ≤ POINTER_SIZE_IN_BITS)
    (t : PatriciaTree V) (hwf : t.wf W) (k : Sparta.BitVec) (v : V)
    (hk : k.len = W) (hkwf : k.wf) :
    ((t.insert k v).get k = some v)
    ∧ (∀ k2, k2 ≠ k → k2.len = W → (t.insert k v).get k2 = t.get k2)
    ∧ ((t.insert k v).wf W)
    ∧ ((t.remove k).contains_key k = false)
    ∧ (∀ k2, k2 ≠ k → k2.len = W → (t.remove k).get k2 = t.get k2)
    ∧ ((t.remove k).wf W) := by
  obtain ⟨hwi, hsemi⟩ := tree_insert_spec hW t hwf k v hk hkwf
  obtain ⟨hwr, hsemr⟩ := tree_remove_spec hW t hwf k hk
  refine ⟨?_, ?_, hwi, ?_, ?_, hwr⟩
  · rw [tree_get_sem _ hwi k hk, hsemi k, if_pos rfl]
  · intro k2 h2 hk2
    rw [tree_get_sem _ hwi k2 hk2, tree_get_sem _ hwf k2 hk2, hsemi k2,
      if_neg h2]
  · simp only [PatriciaTree.contains_key]
    rw [tree_get_sem _ hwr k hk, hsemr k, if_pos rfl]
    rfl
  · intro k2 h2 hk2
    rw [tree_get_sem _ hwr k2 hk2, tree_get_sem _ hwf k2 hk2, hsemr k2,
      if_neg h2]

/-- Witness for claim C8 on a concrete tree: insert 1 ↦ 111 into the empty
tree (8-bit keys), then insert 22 ↦ 222, look both up, and remove. -/
theorem claim_C8_witness :
    (PatriciaTree.new.insert (Sparta.BitVec.from_int_with_len 1 8) 111 :
      PatriciaTree ℕ).wf 8
    ∧ ((PatriciaTree.new.insert (Sparta.BitVec.from_int_with_len 1 8)
          111).insert (Sparta.BitVec.from_int_with_len 22 8) 222).get
        (Sparta.BitVec.from_int_with_len 22 8) = some 222
    ∧ ((PatriciaTree.new.insert (Sparta.BitVec.from_int_with_len 1 8)
          111).insert (Sparta.BitVec.from_int_with_len 22 8) 222).get
        (Sparta.BitVec.from_int_with_len 1 8)
      = (PatriciaTree.new.insert (Sparta.BitVec.from_int_with_len 1 8)
          (111 : ℕ)).get (Sparta.BitVec.from_int_with_len 1 8)
    ∧ ((PatriciaTree.new.insert (Sparta.BitVec.from_int_with_len 1 8)
          (111 : ℕ)).remove (Sparta.BitVec.from_int_with_len 1 8)).contains_key
        (Sparta.BitVec.from_int_with_len 1 8) = false := by
  have hwf0 : (PatriciaTree.new : PatriciaTree ℕ).wf 8 := by
    intro n hn
    cases hn
  have hwf1 := (tree_insert_spec (by decide) PatriciaTree.new hwf0
    (Sparta.BitVec.from_int_with_len 1 8) 111 (by decide)
    (by unfold Sparta.BitVec.wf; decide)).1
  have h1 := claim_C8 8 (by decide)
    (PatriciaTree.new.insert (Sparta.BitVec.from_int_with_len 1 8) 111) hwf1
    (Sparta.BitVec.from_int_with_len 22 8) 222 (by decide)
    (by unfold Sparta.BitVec.wf; decide)
  have h2 := claim_C8 8 (by decide)
    (PatriciaTree.new.insert (Sparta.BitVec.from_int_with_len 1 8) 111) hwf1
    (Sparta.BitVec.from_int_with_len 1 8) 111 (by decide)
    (by unfold Sparta.BitVec.wf; decide)
  exact ⟨hwf1, h1.1, h1.2.1 (Sparta.BitVec.from_int_with_len 1 8) (by decide)
    (by decide), h2.2.2.2.1⟩

/-! ### Abstract environments and partitions (claims C5 and C6). -/

theorem mapGet_mapRemove_self {V D : Type} [DecidableEq V]
    (m : List (V × D)) (v : V) : mapGet (mapRemove m v) v = none := by
  induction m with
  | nil => rfl
  | cons a as ih =>
    by_cases ha : a.1 = v
    · simp only [mapRemove, List.filter_cons, ha]
      simp only [mapRemove] at ih
      simp only [beq_self_eq_true, Bool.not_true, Bool.false_eq_true,
        if_false]
      exact ih
    · simpa [mapRemove, mapGet, List.filter_cons, List.find?, ha] using ih

theorem mapGet_mapInsert_self {V D : Type} [DecidableEq V]
    (m : List (V × D)) (v : V) (d : D) :
    mapGet (mapInsert m v d) v = some d := by
  simp [mapGet, mapInsert, List.find?]

/-- Claim C5: on a non-Bottom abstract environment (both the HashMap- and
the PatriciaTreeMap-backed implementation), `set(v, d)` removes the binding
when `d` is `⊤` (so `get` then reads `⊤` through the implicit-top rule),
collapses the environment to Bottom when `d` is `⊥`, and stores `d`
otherwise; unbound variables read back as the domain's `⊤`. -/
theorem claim_C5 {V D : Type} [DecidableEq V] [DecidableEq D]
    (dops : DomainOps D) (m : List (V × D)) (v : V) (d : D)
    (W : ℕ) (hW : W ≤ POINTER_SIZE_IN_BITS)
    (pm : PatriciaTreeMap D) (hpm : pm.wf W) (pv : Sparta.BitVec)
    (hpv : pv.len = W) (hpvwf : pv.wf) :
    (dops.is_top d = true →
      HashMapAbstractEnvironment.set dops (HashMapAbstractEnvironment.Value m)
          v d = HashMapAbstractEnvironment.Value (mapRemove m v)
      ∧ mapGet (mapRemove m v) v = none
      ∧ HashMapAbstractEnvironment.get dops
          (HashMapAbstractEnvironment.set dops
            (HashMapAbstractEnvironment.Value m) v d) v = dops.top)
    ∧ (dops.is_top d = false → dops.is_bottom d = true →
        HashMapAbstractEnvironment.set dops
          (HashMapAbstractEnvironment.Value m) v d
          = HashMapAbstractEnvironment.Bottom)
    ∧ (dops.is_top d = false → dops.is_bottom d = false →
        HashMapAbstractEnvironment.get dops
          (HashMapAbstractEnvironment.set dops
            (HashMapAbstractEnvironment.Value m) v d) v = d)
    ∧ (∀ v2, mapGet m v2 = none →
        HashMapAbstractEnvironment.get dops
          (HashMapAbstractEnvironment.Value m) v2 = dops.top)
    ∧ (dops.is_top d = true →
        PatriciaTreeMapAbstractEnvironment.set dops
            (PatriciaTreeMapAbstractEnvironment.Value pm) pv d
          = PatriciaTreeMapAbstractEnvironment.Value (pm.remove pv)
        ∧ (pm.remove pv).get pv = none
        ∧ PatriciaTreeMapAbstractEnvironment.get dops
            (PatriciaTreeMapAbstractEnvironment.set dops
              (PatriciaTreeMapAbstractEnvironment.Value pm) pv d) pv
          = dops.top)
    ∧ (dops.is_top d = false → dops.is_bottom d = true →
        PatriciaTreeMapAbstractEnvironment.set dops
          (PatriciaTreeMapAbstractEnvironment.Value pm) pv d
          = PatriciaTreeMapAbstractEnvironment.Bottom)
    ∧ (dops.is_top d = false → dops.is_bottom d = false →
        PatriciaTreeMapAbstractEnvironment.get dops
          (PatriciaTreeMapAbstractEnvironment.set dops
            (PatriciaTreeMapAbstractEnvironment.Value pm) pv d) pv = d)
    ∧ (∀ pv2, pm.get pv2 = none →
        PatriciaTreeMapAbstractEnvironment.get dops
          (PatriciaTreeMapAbstractEnvironment.Value pm) pv2 = dops.top) := by
  have hrem := tree_remove_spec hW pm.storage hpm pv hpv
  have hremget : (pm.remove pv).get pv = none := by
    have := tree_get_sem (pm.storage.remove pv) hrem.1 pv hpv
    simp only [PatriciaTreeMap.remove, PatriciaTreeMap.get]
    rw [this, hrem.2 pv, if_pos rfl]
  refine ⟨?_, ?_, ?_, ?_, ?_, ?_, ?_, ?_⟩
  · intro htop
    refine ⟨by simp [HashMapAbstractEnvironment.set, htop], mapGet_mapRemove_self m v, ?_⟩
    simp [HashMapAbstractEnvironment.set, htop, HashMapAbstractEnvironment.get,
      mapGet_mapRemove_self m v]
  · intro htop hbot
    simp [HashMapAbstractEnvironment.set, htop, hbot]
  · intro htop hbot
    simp [HashMapAbstractEnvironment.set, htop, hbot,
      HashMapAbstractEnvironment.get, mapGet_mapInsert_self m v d]
  · intro v2 hv2
    simp [HashMapAbstractEnvironment.get, hv2]
  · intro htop
    refine ⟨by simp [PatriciaTreeMapAbstractEnvironment.set, htop], hremget, ?_⟩
    simp [PatriciaTreeMapAbstractEnvironment.set, htop,
      PatriciaTreeMapAbstractEnvironment.get, hremget]
  · intro htop hbot
    simp [PatriciaTreeMapAbstractEnvironment.set, htop, hbot]
  · intro htop hbot
    have hins := tree_insert_spec hW pm.storage hpm pv d hpv hpvwf
    have hinsget : (pm.upsert pv d).get pv = some d := by
      have := tree_get_sem (pm.storage.insert pv d) hins.1 pv hpv
      simp only [PatriciaTreeMap.upsert, PatriciaTreeMap.get]
      rw [this, hins.2 pv, if_pos rfl]
    simp [PatriciaTreeMapAbstractEnvironment.set, htop, hbot,
      PatriciaTreeMapAbstractEnvironment.get, hinsget]
  · intro pv2 hpv2
    simp [PatriciaTreeMapAbstractEnvironment.get, hpv2]

/-- Witness for claim C5 over the powerset domain, with an empty HashMap
environment and an empty Patricia environment (8-bit variables). -/
theorem claim_C5_witness :
    (powersetOps.is_top PowersetLattice.Top = true
      ∧ HashMapAbstractEnvironment.get powersetOps
          (HashMapAbstractEnvironment.set powersetOps
            (HashMapAbstractEnvironment.Value ([] : List (ℕ × PowersetLattice)))
            7 PowersetLattice.Top) 7 = powersetOps.top)
    ∧ (powersetOps.is_bottom PowersetLattice.Bottom = true
      ∧ HashMapAbstractEnvironment.set powersetOps
          (HashMapAbstractEnvironment.Value ([] : List (ℕ × PowersetLattice)))
          7 PowersetLattice.Bottom = HashMapAbstractEnvironment.Bottom)
    ∧ PatriciaTreeMapAbstractEnvironment.get powersetOps
        (PatriciaTreeMapAbstractEnvironment.set powersetOps
          (PatriciaTreeMapAbstractEnvironment.Value
            (PatriciaTreeMap.new : PatriciaTreeMap PowersetLattice))
          (Sparta.BitVec.from_int_with_len 3 8) (PowersetLattice.Value {5}))
        (Sparta.BitVec.from_int_with_len 3 8)
      = PowersetLattice.Value {5} := by
  have hpmwf : (PatriciaTreeMap.new : PatriciaTreeMap PowersetLattice).wf 8 := by
    intro n hn
    cases hn
  have h := claim_C5 powersetOps ([] : List (ℕ × PowersetLattice)) 7
    PowersetLattice.Top 8 (by decide) PatriciaTreeMap.new hpmwf
    (Sparta.BitVec.from_int_with_len 3 8) (by decide)
    (by unfold Sparta.BitVec.wf; decide)
  have h2 := claim_C5 powersetOps ([] : List (ℕ × PowersetLattice)) 7
    PowersetLattice.Bottom 8 (by decide) PatriciaTreeMap.new hpmwf
    (Sparta.BitVec.from_int_with_len 3 8) (by decide)
    (by unfold Sparta.BitVec.wf; decide)
  have h3 := claim_C5 powersetOps ([] : List (ℕ × PowersetLattice)) 7
    (PowersetLattice.Value {5}) 8 (by decide) PatriciaTreeMap.new hpmwf
    (Sparta.BitVec.from_int_with_len 3 8) (by decide)
    (by unfold Sparta.BitVec.wf; decide)
  exact ⟨⟨rfl, (h.1 rfl).2.2⟩, ⟨rfl, h2.2.1 rfl rfl⟩,
    h3.2.2.2.2.2.2.1 rfl rfl⟩

/-- Claim C6: on abstract partitions (both implementations), `set` on a Top
partition is a no-op; on a Value partition, a `⊥` binding is removed and
anything else is stored; unbound labels read back as the domain's `⊥`. -/
theorem claim_C6 {L D : Type} [DecidableEq L] [DecidableEq D]
    (dops : DomainOps D) (m : List (L × D)) (l : L) (d : D)
    (W : ℕ) (hW : W ≤ POINTER_SIZE_IN_BITS)
    (pm : PatriciaTreeMap D) (hpm : pm.wf W) (pl : Sparta.BitVec)
    (hpl : pl.len = W) (hplwf : pl.wf) :
    (HashMapAbstractPartition.set dops HashMapAbstractPartition.Top l d
      = HashMapAbstractPartition.Top)
    ∧ (dops.is_bottom d = true →
        HashMapAbstractPartition.set dops (HashMapAbstractPartition.Value m)
            l d = HashMapAbstractPartition.Value (mapRemove m l)
        ∧ mapGet (mapRemove m l) l = none)
    ∧ (dops.is_bottom d = false →
        HashMapAbstractPartition.get dops
          (HashMapAbstractPartition.set dops
            (HashMapAbstractPartition.Value m) l d) l = d)
    ∧ (∀ l2, mapGet m l2 = none →
        HashMapAbstractPartition.get dops (HashMapAbstractPartition.Value m)
          l2 = dops.bottom)
    ∧ (PatriciaTreeMapAbstractPartition.set dops
        PatriciaTreeMapAbstractPartition.Top pl d
        = PatriciaTreeMapAbstractPartition.Top)
    ∧ (dops.is_bottom d = true →
        PatriciaTreeMapAbstractPartition.set dops
            (PatriciaTreeMapAbstractPartition.Value pm) pl d
          = PatriciaTreeMapAbstractPartition.Value (pm.remove pl)
        ∧ (pm.remove pl).get pl = none)
    ∧ (dops.is_bottom d = false →
        PatriciaTreeMapAbstractPartition.get dops
          (PatriciaTreeMapAbstractPartition.set dops
            (PatriciaTreeMapAbstractPartition.Value pm) pl d) pl = d)
    ∧ (∀ pl2, pm.get pl2 = none →
        PatriciaTreeMapAbstractPartition.get dops
          (PatriciaTreeMapAbstractPartition.Value pm) pl2 = dops.bottom) := by
  have hrem := tree_remove_spec hW pm.storage hpm pl hpl
  have hremget : (pm.remove pl).get pl = none := by
    have := tree_get_sem (pm.storage.remove pl) hrem.1 pl hpl
    simp only [PatriciaTreeMap.remove, PatriciaTreeMap.get]
    rw [this, hrem.2 pl, if_pos rfl]
  refine ⟨rfl, ?_, ?_, ?_, rfl, ?_, ?_, ?_⟩
  · intro hbot
    exact ⟨by simp [HashMapAbstractPartition.set, hbot],
      mapGet_mapRemove_self m l⟩
  · intro hbot
    simp [HashMapAbstractPartition.set, hbot, HashMapAbstractPartition.get,
      mapGet_mapInsert_self m l d]
  · intro l2 hl2
    simp [HashMapAbstractPartition.get, hl2]
  · intro hbot
    exact ⟨by simp [PatriciaTreeMapAbstractPartition.set, hbot], hremget⟩
  · intro hbot
    have hins := tree_insert_spec hW pm.storage hpm pl d hpl hplwf
    have hinsget : (pm.upsert pl d).get pl = some d := by
      have := tree_get_sem (pm.storage.insert pl d) hins.1 pl hpl
      simp only [PatriciaTreeMap.upsert, PatriciaTreeMap.get]
      rw [this, hins.2 pl, if_pos rfl]
    simp [PatriciaTreeMapAbstractPartition.set, hbot,
      PatriciaTreeMapAbstractPartition.get, hinsget]
  · intro pl2 hpl2
    simp [PatriciaTreeMapAbstractPartition.get, hpl2]

/-- Witness for claim C6 over the powerset domain. -/
theorem claim_C6_witness :
    (HashMapAbstractPartition.set powersetOps
        (HashMapAbstractPartition.Top : HashMapAbstractPartition ℕ
          PowersetLattice) 7 (PowersetLattice.Value {1})
      = HashMapAbstractPartition.Top)
    ∧ (HashMapAbstractPartition.get powersetOps
        (HashMapAbstractPartition.set powersetOps
          (HashMapAbstractPartition.Value ([] : List (ℕ × PowersetLattice)))
          7 (PowersetLattice.Value {1})) 7 = PowersetLattice.Value {1})
    ∧ PatriciaTreeMapAbstractPartition.get powersetOps
        (PatriciaTreeMapAbstractPartition.set powersetOps
          (PatriciaTreeMapAbstractPartition.Value
            (PatriciaTreeMap.new : PatriciaTreeMap PowersetLattice))
          (Sparta.BitVec.from_int_with_len 3 8) (PowersetLattice.Value {5}))
        (Sparta.BitVec.from_int_with_len 3 8)
      = PowersetLattice.Value {5} := by
  have hpmwf : (PatriciaTreeMap.new : PatriciaTreeMap PowersetLattice).wf 8 := by
    intro n hn
    cases hn
  have h := claim_C6 powersetOps ([] : List (ℕ × PowersetLattice)) 7
    (PowersetLattice.Value {1}) 8 (by decide) PatriciaTreeMap.new hpmwf
    (Sparta.BitVec.from_int_with_len 3 8) (by decide)
    (by unfold Sparta.BitVec.wf; decide)
  have h2 := claim_C6 powersetOps ([] : List (ℕ × PowersetLattice)) 7
    (PowersetLattice.Value {5}) 8 (by decide) PatriciaTreeMap.new hpmwf
    (Sparta.BitVec.from_int_with_len 3 8) (by decide)
    (by unfold Sparta.BitVec.wf; decide)
  exact ⟨h.1, h.2.2.1 rfl, h2.2.2.2.2.2.2.1 rfl⟩

/-! ### WPO head/exit pairing (claim C4). -/

/-- In a chunked kind list, every Exit is immediately followed by a Head,
and every Head is immediately preceded by an Exit. -/
theorem chunked_exit_head {tys : List WpoNodeType} (h : Chunked tys) :
    ∀ i, (tys[i]? = some WpoNodeType.Exit →
            tys[i + 1]? = some WpoNodeType.Head)
      ∧ (tys[i]? = some WpoNodeType.Head →
            0 < i ∧ tys[i - 1]? = some WpoNodeType.Exit) := by
  induction h with
  | nil =>
    intro i
    constructor <;> intro hx <;> simp at hx
  | plain hl ih =>
    rename_i l
    intro i
    rcases Nat.lt_trichotomy i l.length with hi | hi | hi
    · constructor
      · intro hx
        rw [List.getElem?_append_left hi] at hx
        have hnext := (ih i).1 hx
        have hlt : i + 1 < l.length := (List.getElem?_eq_some.mp hnext).1
        rw [List.getElem?_append_left hlt]
        exact hnext
      · intro hx
        rw [List.getElem?_append_left hi] at hx
        have hprev := (ih i).2 hx
        refine ⟨hprev.1, ?_⟩
        have hlt : i - 1 < l.length := (List.getElem?_eq_some.mp hprev.2).1
        rw [List.getElem?_append_left hlt]
        exact hprev.2
    · subst hi
      constructor <;> intro hx <;>
        rw [List.getElem?_append_right (le_refl _)] at hx <;>
          simp at hx
    · constructor <;> intro hx <;>
        · rw [List.getElem?_append_right (by omega)] at hx
          have : i - l.length ≥ 1 := by omega
          rcases hn : i - l.length with _ | j
          · omega
          · rw [hn] at hx
            simp at hx
  | pair hl ih =>
    rename_i l
    intro i
    rcases Nat.lt_trichotomy i l.length with hi | hi | hi
    · constructor
      · intro hx
        rw [List.getElem?_append_left hi] at hx
        have hnext := (ih i).1 hx
        have hlt : i + 1 < l.length := (List.getElem?_eq_some.mp hnext).1
        rw [List.getElem?_append_left hlt]
        exact hnext
      · intro hx
        rw [List.getElem?_append_left hi] at hx
        have hprev := (ih i).2 hx
        refine ⟨hprev.1, ?_⟩
        have hlt : i - 1 < l.length := (List.getElem?_eq_some.mp hprev.2).1
        rw [List.getElem?_append_left hlt]
        exact hprev.2
    · subst hi
      constructor
      · intro _
        rw [List.getElem?_append_right (by omega)]
        have : l.length + 1 - l.length = 1 := by omega
        rw [this]
        rfl
      · intro hx
        rw [List.getElem?_append_right (le_refl _)] at hx
        simp at hx
    · rcases hn : i - l.length with _ | j
      · omega
      · constructor
        · intro hx
          rw [List.getElem?_append_right (by omega), hn] at hx
          rcases j with _ | j2
          · simp at hx
          · simp at hx
        · intro hx
          rw [List.getElem?_append_right (by omega), hn] at hx
          rcases j with _ | j2
          · refine ⟨by omega, ?_⟩
            rw [List.getElem?_append_right (by omega)]
            have : i - 1 - l.length = 0 := by omega
            rw [this]
            rfl
          · simp at hx

theorem listModify_map {α β : Type} (g : α → β) (f : α → α)
    (hf : ∀ x, g (f x) = g x) :
    ∀ (l : List α) (i : ℕ), (listModify l i f).map g = l.map g
  | [], _ => rfl
  | x :: xs, 0 => by simp [listModify, hf]
  | x :: xs, i + 1 => by
    simp [listModify, listModify_map g f hf xs i]

theorem foldl_nodesTy {α : Type} {f : BuildState → α → BuildState}
    (h : ∀ st a, nodesTy (f st a) = nodesTy st) :
    ∀ (l : List α) (st : BuildState),
      nodesTy (List.foldl f st l) = nodesTy st
  | [], _ => rfl
  | a :: as, st => by
    rw [List.foldl_cons, foldl_nodesTy h as (f st a), h st a]

theorem foldl_nodes {α : Type} {f : BuildState → α → BuildState}
    (h : ∀ st a, (f st a).nodes = st.nodes) :
    ∀ (l : List α) (st : BuildState), (List.foldl f st l).nodes = st.nodes
  | [], _ => rfl
  | a :: as, st => by
    rw [List.foldl_cons, foldl_nodes h as (f st a), h st a]

theorem add_successor_nodesTy (st : BuildState) (a b c : ℕ) (o : Bool) :
    nodesTy (st.add_successor a b c o) = nodesTy st := by
  simp only [nodesTy, BuildState.add_successor]
  by_cases hs : ((st.nodes.getD (st.index_of a) (WpoNode.plain 0 0)).is_successor
      (st.index_of b)) = true
  · rw [if_pos hs]
  · rw [if_neg hs]
    dsimp only []
    rw [listModify_map WpoNode.ty
          (fun n => n.add_predecessor (st.index_of a)) (fun x => rfl),
        listModify_map WpoNode.ty
          (fun n => n.add_successor (st.index_of b)) (fun x => rfl)]

theorem add_node_nodesTy (st : BuildState) (d v s : ℕ) (ty : WpoNodeType) :
    nodesTy (st.add_node d v s ty) = nodesTy st ++ [ty] := by
  simp [BuildState.add_node, nodesTy, WpoNode.new]

theorem phase2Step_nodesTy (st : BuildState) (h : ℕ) :
    nodesTy (BuildState.phase2Step st h) = nodesTy st ++ [WpoNodeType.Plain]
    ∨ nodesTy (BuildState.phase2Step st h)
        = nodesTy st ++ [WpoNodeType.Exit, WpoNodeType.Head] := by
  unfold BuildState.phase2Step
  simp only []
  split
  · left
    refine Eq.trans (add_node_nodesTy _ _ _ _ _)
      (congrArg (fun t => t ++ [WpoNodeType.Plain]) (foldl_nodesTy ?_ _ _))
    exact fun st2 uv => rfl
  · right
    refine Eq.trans (foldl_nodesTy ?_ _ _) ?_
    · exact fun st2 v => rfl
    refine Eq.trans (foldl_nodesTy ?_ _ _) ?_
    · intro st2 v
      refine foldl_nodesTy ?_ _ _
      exact fun st3 uvv => add_successor_nodesTy st3 _ _ _ _
    split
    · refine Eq.trans (add_successor_nodesTy _ _ _ _ _) ?_
      refine Eq.trans (add_node_nodesTy _ _ _ _ _) ?_
      refine Eq.trans (congrArg (fun t => t ++ [WpoNodeType.Head])
        (add_node_nodesTy _ _ _ _ _)) ?_
      refine Eq.trans (congrArg
        (fun t => t ++ [WpoNodeType.Exit] ++ [WpoNodeType.Head])
        (foldl_nodesTy ?_ _ _)) ?_
      · exact fun st2 uv => rfl
      simp
    · refine Eq.trans (foldl_nodesTy ?_ _ _) ?_
      · exact fun st2 p => add_successor_nodesTy st2 _ _ _ _
      refine Eq.trans (add_node_nodesTy _ _ _ _ _) ?_
      refine Eq.trans (congrArg (fun t => t ++ [WpoNodeType.Head])
        (add_node_nodesTy _ _ _ _ _)) ?_
      refine Eq.trans (congrArg
        (fun t => t ++ [WpoNodeType.Exit] ++ [WpoNodeType.Head])
        (foldl_nodesTy ?_ _ _)) ?_
      · exact fun st2 uv => rfl
      simp

theorem toplevelStep_nodesTy (st : BuildState) (v : ℕ) :
    nodesTy (BuildState.toplevelStep st v) = nodesTy st := by
  unfold BuildState.toplevelStep
  simp only []
  split
  · refine Eq.trans (foldl_nodesTy ?_ _ _) rfl
    exact fun st2 uvv => add_successor_nodesTy st2 _ _ _ _
  · rfl

theorem outerWalk_nodesTy (v x_max : ℕ) :
    ∀ (fuel h x : ℕ) (st : BuildState),
      nodesTy (BuildState.outerWalk v x_max fuel h x st) = nodesTy st
  | 0, _, _, _ => rfl
  | fuel + 1, h, x, st => by
    unfold BuildState.outerWalk
    split
    · refine Eq.trans (outerWalk_nodesTy v x_max fuel _ _ _) ?_
      exact listModify_map WpoNode.ty
        (fun n => n.inc_num_outer_preds v) (fun y => rfl) _ _
    · exact listModify_map WpoNode.ty
        (fun n => n.inc_num_outer_preds v) (fun y => rfl) _ _

theorem outerStep_nodesTy (st : BuildState) (p : ℕ × ℕ) :
    nodesTy (BuildState.outerStep st p) = nodesTy st :=
  outerWalk_nodesTy _ _ _ _ _ _

theorem dfsStep_nodes (succ_nodes : ℕ → List ℕ) (st : BuildState) :
    (BuildState.dfsStep succ_nodes st).nodes = st.nodes := by
  unfold BuildState.dfsStep
  split
  · rfl
  · simp only []
    split
    · rfl
    · split
      · rfl
      · split
        · refine Eq.trans (foldl_nodes ?_ _ _) rfl
          intro st2 a
          split
          · rfl
          · split <;> rfl
        · refine Eq.trans (foldl_nodes ?_ _ _) rfl
          intro st2 a
          split
          · rfl
          · split <;> rfl

theorem dfsLoop_nodes (succ_nodes : ℕ → List ℕ) :
    ∀ (fuel : ℕ) (st : BuildState),
      (BuildState.dfsLoop succ_nodes fuel st).nodes = st.nodes
  | 0, _ => rfl
  | fuel + 1, st => by
    unfold BuildState.dfsLoop
    split
    · rfl
    · rw [dfsLoop_nodes succ_nodes fuel _, dfsStep_nodes]

theorem chunked_foldl_phase2 :
    ∀ (hs : List ℕ) (st : BuildState), Chunked (nodesTy st) →
      Chunked (nodesTy (List.foldl BuildState.phase2Step st hs))
  | [], _, hst => hst
  | a :: as, st, hst => by
    rw [List.foldl_cons]
    apply chunked_foldl_phase2 as
    rcases phase2Step_nodesTy st a with hp | hp <;> rw [hp]
    · exact Chunked.plain hst
    · exact Chunked.pair hst

/-- The kind list of every built WPO is chunked: Plain singletons and
Exit-then-Head pairs. -/
theorem wpoNew_chunked (root size : ℕ) (succ_nodes : ℕ → List ℕ) (fuel : ℕ) :
    Chunked ((wpoNew root size succ_nodes fuel).nodes.map WpoNode.ty) := by
  unfold wpoNew
  split
  · exact Chunked.plain Chunked.nil
  · unfold wpoBuild
    simp only []
    have key : ∀ (st1 : BuildState) (l2 l3 : List ℕ) (l4 : List (ℕ × ℕ)),
        Chunked (nodesTy st1) →
        Chunked (nodesTy (List.foldl BuildState.outerStep
          (List.foldl BuildState.toplevelStep
            (List.foldl BuildState.phase2Step st1 l2) l3) l4)) := by
      intro st1 l2 l3 l4 hst
      rw [foldl_nodesTy outerStep_nodesTy, foldl_nodesTy toplevelStep_nodesTy]
      exact chunked_foldl_phase2 l2 st1 hst
    refine key _ _ _ _ ?_
    show Chunked (List.map WpoNode.ty (BuildState.dfsLoop succ_nodes fuel
      (BuildState.initial size root)).nodes)
    rw [dfsLoop_nodes]
    exact Chunked.nil

theorem map_ty_getElem (w : WeakPartialOrdering) (x : ℕ)
    (hx : x < w.nodes.length) :
    (w.nodes.map WpoNode.ty)[x]? = some (w.nodeAt x).ty := by
  rw [List.getElem?_map, List.getElem?_eq_getElem hx]
  unfold WeakPartialOrdering.nodeAt
  rw [List.getD_eq_getElem?_getD, List.getElem?_eq_getElem hx]
  rfl

theorem size_of_mapElem {w : WeakPartialOrdering} {x : ℕ} {t : WpoNodeType}
    (hx : (w.nodes.map WpoNode.ty)[x]? = some t) : x < w.size := by
  rcases List.getElem?_eq_some.mp hx with ⟨hlt, _⟩
  simpa using hlt

theorem ty_of_mapElem {w : WeakPartialOrdering} {x : ℕ} {t : WpoNodeType}
    (hx : (w.nodes.map WpoNode.ty)[x]? = some t) : (w.nodeAt x).ty = t :=
  Option.some_inj.mp ((map_ty_getElem w x (size_of_mapElem hx)).symm.trans hx)

theorem mapElem_of_ty {w : WeakPartialOrdering} {x : ℕ} {t : WpoNodeType}
    (hx : x < w.size) (ht : (w.nodeAt x).ty = t) :
    (w.nodes.map WpoNode.ty)[x]? = some t := by
  rw [map_ty_getElem w x hx, ht]

/-- Claim C4: in every WPO the builder produces (any root, declared size,
successor map and DFS fuel), `get_head_of_exit x = x + 1` and
`get_exit_of_head h = h - 1` hold by construction, the round-trip
`get_exit_of_head (get_head_of_exit x) = x` holds for every index, every
in-range Exit vertex `x` is immediately followed by a Head at `x + 1`
(which is in range), and every in-range Head vertex `h` is immediately
preceded by an Exit at `h - 1` (so `h > 0`): the builder emits each Exit
and its Head at consecutive indices. -/
theorem claim_C4 (root size : ℕ) (succ_nodes : ℕ → List ℕ) (fuel x h : ℕ) :
    (wpoNew root size succ_nodes fuel).get_head_of_exit x = x + 1 ∧
    (wpoNew root size succ_nodes fuel).get_exit_of_head h = h - 1 ∧
    (wpoNew root size succ_nodes fuel).get_exit_of_head
      ((wpoNew root size succ_nodes fuel).get_head_of_exit x) = x ∧
    ((wpoNew root size succ_nodes fuel).is_exit x = true →
      x < (wpoNew root size succ_nodes fuel).size →
      x + 1 < (wpoNew root size succ_nodes fuel).size ∧
      (wpoNew root size succ_nodes fuel).is_head (x + 1) = true) ∧
    ((wpoNew root size succ_nodes fuel).is_head h = true →
      h < (wpoNew root size succ_nodes fuel).size →
      0 < h ∧ (wpoNew root size succ_nodes fuel).is_exit (h - 1) = true) := by
  have hch := wpoNew_chunked root size succ_nodes fuel
  refine ⟨rfl, rfl, rfl, ?_, ?_⟩
  · intro hex hlt
    have hx1 : ((wpoNew root size succ_nodes fuel).nodes.map WpoNode.ty)[x]?
        = some WpoNodeType.Exit := by
      refine mapElem_of_ty hlt ?_
      simpa [WeakPartialOrdering.is_exit, WpoNode.is_exit] using hex
    have hx2 := (chunked_exit_head hch x).1 hx1
    refine ⟨size_of_mapElem hx2, ?_⟩
    have hty := ty_of_mapElem hx2
    simp [WeakPartialOrdering.is_head, WpoNode.is_head, hty]
  · intro hhd hlt
    have hx1 : ((wpoNew root size succ_nodes fuel).nodes.map WpoNode.ty)[h]?
        = some WpoNodeType.Head := by
      refine mapElem_of_ty hlt ?_
      simpa [WeakPartialOrdering.is_head, WpoNode.is_head] using hhd
    have hx2 := (chunked_exit_head hch h).2 hx1
    refine ⟨hx2.1, ?_⟩
    have hty := ty_of_mapElem hx2.2
    simp [WeakPartialOrdering.is_exit, WpoNode.is_exit, hty]

/-- Witness for C4 at the two-node loop graph: vertex 0 of its WPO is the
Exit of the self-loop component, vertex 1 its Head, with all hypotheses
discharged on the concrete WPO. -/
theorem claim_C4_witness :
    (wpoNew 1 2 wsucc 100).is_exit 0 = true ∧
    (0 + 1 < (wpoNew 1 2 wsucc 100).size ∧
      (wpoNew 1 2 wsucc 100).is_head (0 + 1) = true) ∧
    (wpoNew 1 2 wsucc 100).is_head 1 = true ∧
    (0 < 1 ∧ (wpoNew 1 2 wsucc 100).is_exit (1 - 1) = true) :=
  ⟨by decide,
    (claim_C4 1 2 wsucc 100 0 1).2.2.2.1 (by decide) (by decide),
    by decide,
    (claim_C4 1 2 wsucc 100 0 1).2.2.2.2 (by decide) (by decide)⟩

/-! ### The trivial-WPO shortcut (claim C10). -/

/-- Claim C10: when the root has no successors, `WeakPartialOrdering::new`
skips the construction and returns the one-vertex WPO: a single Plain
vertex for the root, entry index 0, no predecessors, post-DFN 1 for the
root. -/
theorem claim_C10 (root size : ℕ) (succ_nodes : ℕ → List ℕ) (fuel : ℕ)
    (h : succ_nodes root = []) :
    wpoNew root size succ_nodes fuel =
        { nodes := [WpoNode.plain root 1], toplevel := [0],
          post_dfn := [(root, 1)] }
    ∧ (wpoNew root size succ_nodes fuel).size = 1
    ∧ (wpoNew root size succ_nodes fuel).is_plain 0 = true
    ∧ (wpoNew root size succ_nodes fuel).get_node 0 = root
    ∧ (wpoNew root size succ_nodes fuel).get_entry = 0
    ∧ (wpoNew root size succ_nodes fuel).get_num_preds 0 = 0
    ∧ (wpoNew root size succ_nodes fuel).get_post_dfn root = 1 := by
  have hw : wpoNew root size succ_nodes fuel =
      { nodes := [WpoNode.plain root 1], toplevel := [0],
        post_dfn := [(root, 1)] } := by
    simp [wpoNew, h]
  refine ⟨hw, ?_, ?_, ?_, ?_, ?_, ?_⟩ <;>
    simp [hw, WeakPartialOrdering.size, WeakPartialOrdering.is_plain,
      WeakPartialOrdering.get_node, WeakPartialOrdering.get_entry,
      WeakPartialOrdering.get_num_preds, WeakPartialOrdering.get_post_dfn,
      WeakPartialOrdering.nodeAt, WpoNode.plain, WpoNode.new, WpoNode.is_plain,
      WpoNode.get_node, WpoNode.get_num_preds, WpoNode.get_predecessors,
      WpoNodeData.new]

/-- Witness for claim C10 at a concrete input (root 7, declared graph size
42, no successors). -/
theorem claim_C10_witness :
    (fun _ : ℕ => ([] : List ℕ)) 7 = []
    ∧ ((wpoNew 7 42 (fun _ => []) 3).size = 1
        ∧ (wpoNew 7 42 (fun _ => []) 3).is_plain 0 = true
        ∧ (wpoNew 7 42 (fun _ => []) 3).get_node 0 = 7
        ∧ (wpoNew 7 42 (fun _ => []) 3).get_entry = 0
        ∧ (wpoNew 7 42 (fun _ => []) 3).get_num_preds 0 = 0
        ∧ (wpoNew 7 42 (fun _ => []) 3).get_post_dfn 7 = 1) :=
  ⟨rfl, (claim_C10 7 42 (fun _ => []) 3 rfl).2⟩

/-! ### Disjoint union (claim C7).  The claim as stated ("leq between values
of different variants is false") fails when the left value is the bottom of
its inner domain, because the generated `leq` short-circuits on
`self.is_bottom()` before comparing variants. -/

/-- Counterexample to claim C7 as stated: `First(⊥)` and `Second({1})` carry
different variants, yet `leq` returns `true` (the generated code
short-circuits on `self.is_bottom()`), where the claim requires `false`. -/
theorem claim_C7_counterexample :
    DisjointUnion.differentVariants
        (DisjointUnion.First PowersetLattice.Bottom :
          DisjointUnion PowersetLattice PowersetLattice)
        (DisjointUnion.Second (PowersetLattice.Value {1}))
    ∧ DisjointUnion.leq powersetOps powersetOps
        (DisjointUnion.First PowersetLattice.Bottom)
        (DisjointUnion.Second (PowersetLattice.Value {1})) = true :=
  ⟨trivial, rfl⟩

/-- Claim C7, amended: for values of different variants, join is `⊤` and
meet is `⊥` unconditionally, and `leq` is false provided the left value is
not `⊥` and the right value is not `⊤` (the generated bottom/top
short-circuits fire otherwise). -/
theorem claim_C7_amended {D1 D2 : Type} (o1 : DomainOps D1) (o2 : DomainOps D2)
    (x y : DisjointUnion D1 D2) (hdiff : DisjointUnion.differentVariants x y) :
    DisjointUnion.join o1 o2 x y = DisjointUnion.top o1 o2
    ∧ DisjointUnion.meet o1 o2 x y = DisjointUnion.bottom o1 o2
    ∧ (DisjointUnion.is_bottom o1 o2 x = false →
        DisjointUnion.is_top o1 o2 y = false →
        DisjointUnion.leq o1 o2 x y = false) := by
  cases x <;> cases y <;> simp only [DisjointUnion.differentVariants] at hdiff
  · refine ⟨rfl, rfl, ?_⟩
    intro hx hy
    simp only [DisjointUnion.is_bottom] at hx
    simp only [DisjointUnion.is_top] at hy
    simp only [DisjointUnion.leq, DisjointUnion.is_bottom, DisjointUnion.is_top,
      hx, hy, Bool.false_eq_true, if_false]
    split <;> simp
  · refine ⟨rfl, rfl, ?_⟩
    intro hx hy
    simp only [DisjointUnion.is_bottom] at hx
    simp only [DisjointUnion.is_top] at hy
    simp only [DisjointUnion.leq, DisjointUnion.is_bottom, DisjointUnion.is_top,
      hx, hy, Bool.false_eq_true, if_false]
    split <;> simp

/-- Witness for the amended claim C7 at the spec's concrete example:
`First({1,2})` and `Second({2,3})` over two powerset domains. -/
theorem claim_C7_witness :
    DisjointUnion.differentVariants
        (DisjointUnion.First (PowersetLattice.Value {1, 2}) :
          DisjointUnion PowersetLattice PowersetLattice)
        (DisjointUnion.Second (PowersetLattice.Value {2, 3}))
    ∧ DisjointUnion.join powersetOps powersetOps
        (DisjointUnion.First (PowersetLattice.Value {1, 2}))
        (DisjointUnion.Second (PowersetLattice.Value {2, 3}))
        = DisjointUnion.top powersetOps powersetOps
    ∧ DisjointUnion.meet powersetOps powersetOps
        (DisjointUnion.First (PowersetLattice.Value {1, 2}))
        (DisjointUnion.Second (PowersetLattice.Value {2, 3}))
        = DisjointUnion.bottom powersetOps powersetOps
    ∧ DisjointUnion.leq powersetOps powersetOps
        (DisjointUnion.First (PowersetLattice.Value {1, 2}))
        (DisjointUnion.Second (PowersetLattice.Value {2, 3})) = false :=
  by
  have h := claim_C7_amended powersetOps powersetOps
    (DisjointUnion.First (PowersetLattice.Value {1, 2}))
    (DisjointUnion.Second (PowersetLattice.Value {2, 3})) trivial
  exact ⟨trivial, h.1, h.2.1, h.2.2 rfl rfl⟩

end Sparta
